import Mathlib

/-!
# Verification of the `bencode` codec

A shallow embedding of the repository's Bencode encoder (`encode.go`:
`Marshal`, `marshal`, `marshalInt`, `isASCII`, `marshalString`,
`marshalList`, `marshalStruct`) and of its latest decoder
(`Unmarshal`, `decoder.unmarshalNext`, `unmarshalString`, `unmarshalInt`,
`unmarshalList`, `unmarshalDict`, `stringIndices`, `intLimit`, and the
`valueSetter`/`noOpValueSetter` pair), together with proofs of the
specification's claims about them.

Go strings and byte slices are modelled as lists of naturals (one per
byte).  Go `int` arithmetic is modelled as unbounded except where the
source itself is range-sensitive (`strconv.Atoi`, whose `int64` range
check is modelled explicitly; and the `int(uint64)` conversion, modelled
as a two's-complement wrap).  A Go runtime panic (index or slice out of
range) is modelled as the distinguished error `DErr.panicked`.
-/

namespace Bencode

/-- Bytes of a Go string / byte slice. -/
abbrev Bytes := List Nat

/-- `isDigit` from the decoder: `b >= '0' && b <= '9'`. -/
def isDigit (b : Nat) : Bool :=
  48 ≤ b && b ≤ 57

/-- Decimal digit bytes of a natural number, most significant first
(the digits `strconv.Itoa` produces for a non-negative value). -/
def natToDigits (n : Nat) : Bytes :=
  if _h : n < 10 then [48 + n]
  else natToDigits (n / 10) ++ [48 + n % 10]
  decreasing_by exact Nat.div_lt_self (by omega) (by omega)

/-- Value of a run of decimal digit bytes, most significant first. -/
def digitsToNat (ds : Bytes) : Nat :=
  ds.foldl (fun a d => a * 10 + (d - 48)) 0

/-- Decimal rendering of a Go integer, `strconv.Itoa` style:
a `-` sign followed by the digits of the magnitude for negatives. -/
def intToDigits (i : Int) : Bytes :=
  if i < 0 then 45 :: natToDigits (-i).toNat else natToDigits i.toNat

/-- `strconv.Atoi`: optional single `+`/`-` sign, then a non-empty run of
decimal digits, with the resulting value required to fit in a signed
64-bit integer.  Returns `none` where the Go call returns an error. -/
def goAtoi (s : Bytes) : Option Int :=
  match s with
  | [] => none
  | c :: rest =>
    if c = 45 || c = 43 then
      if rest = [] then none
      else if rest.all isDigit then
        let v : Int := if c = 45 then -(digitsToNat rest : Int) else (digitsToNat rest : Int)
        if v < -(2 ^ 63) || v > 2 ^ 63 - 1 then none else some v
      else none
    else
      if (c :: rest).all isDigit then
        let v : Int := (digitsToNat (c :: rest) : Int)
        if v < -(2 ^ 63) || v > 2 ^ 63 - 1 then none else some v
      else none

/-- A Go slice expression `data[a:b]`: `none` models the runtime panic
raised when the bounds are not `a ≤ b ≤ len(data)`. -/
def goSlice (data : Bytes) (a b : Nat) : Option Bytes :=
  if a ≤ b ∧ b ≤ data.length then some ((data.drop a).take (b - a)) else none

/-- In-bounds slice `data[a:b]` (used where the source guarantees the
bounds). -/
def extract (data : Bytes) (a b : Nat) : Bytes :=
  (data.drop a).take (b - a)

/-- Length of the leading run of decimal digit bytes. -/
def digitRun : Bytes -> Nat
  | [] => 0
  | b :: rest => if isDigit b then digitRun rest + 1 else 0

/-- `intLimit` from the decoder: the first position at or after `offset`
that is past the end of the data or does not hold a decimal digit
(the source's scanning loop, expressed through the length of the digit
run that starts at `offset`). -/
def intLimit (offset : Nat) (data : Bytes) : Nat :=
  offset + digitRun (data.drop offset)

/-! ## Host values

`HVal` models the Go values the codec works on: signed and unsigned
integer scalars of the kinds the encoder's `switch` accepts, strings,
slices (the element type is carried by `elemZ`, a surrogate for the
slice's `reflect` element type), and structs.  A struct field carries the
value of its `key` struct tag (`[]` models the absent/empty tag that
`Tag.Get "key"` reports as `""`) and its `bencode` struct tag (`none`
models `Tag.Lookup "bencode"` failing), since the encoder reads the
former and the decoder the latter.  `viface` models an `interface{}`
wrapper and `vunsup` any value whose kind falls into the encoder's
`default:` branch. -/

/-- Signed integer kinds (`reflect.Int`, `Int8`, …, `Int64`). -/
inductive IW where
  | w8 | w16 | w32 | w64 | wInt
deriving DecidableEq

/-- Unsigned integer kinds (`reflect.Uint`, `Uint8`, …, `Uint64`). -/
inductive UW where
  | u8 | u16 | u32 | u64 | uInt
deriving DecidableEq

/-- A Go host value (and, for the decoder, a typed target's contents). -/
inductive HVal where
  | vint (w : IW) (i : Int)
  | vuint (w : UW) (u : Nat)
  | viface (v : HVal)
  | vstr (s : Bytes)
  | vslice (elemZ : HVal) (elems : List HVal)
  | vrecord (fields : List (Bytes × Option Bytes × HVal))
  | vunsup
deriving Inhabited

/-- The `int(v.Uint())` conversion: two's-complement reinterpretation of
a `uint64` value as a signed 64-bit integer. -/
def uintToInt (u : Nat) : Int :=
  if u < 2 ^ 63 then (u : Int) else (u : Int) - 2 ^ 64

/-! ## Encoder (`encode.go`)

The encoder writes into a `strings.Builder`; we thread the builder's
contents `w : Bytes` explicitly and pair it with the (first) error, so
that partially written output is modelled exactly.  Note that
`marshalStruct` in the source ignores the error returned by the
recursive `marshal` call on a field's value (it only checks the error of
`marshalString` on the key); the model reproduces that. -/

/-- Encoder errors. -/
inductive EErr where
  | unsupported
  | nonASCII (s : Bytes)
  | missingKeyTag
deriving DecidableEq

/-- `marshalInt`: writes `i`, the decimal digits, `e`. -/
def marshalInt (i : Int) (w : Bytes) : Bytes :=
  w ++ 105 :: intToDigits i ++ [101]

/-- `isASCII`: every byte is at most `unicode.MaxASCII` (0x7F). -/
def isASCII (s : Bytes) : Bool :=
  s.all (· ≤ 127)

/-- `marshalString`: ASCII check, then decimal length, `:`, raw bytes. -/
def marshalString (s : Bytes) (w : Bytes) : Bytes × Option EErr :=
  if isASCII s then (w ++ natToDigits s.length ++ 58 :: s, none)
  else (w, some (.nonASCII s))

/-- Byte-lexicographic order on byte strings, as `sort.Strings` uses. -/
def lexLe : Bytes → Bytes → Bool
  | [], _ => true
  | _ :: _, [] => false
  | a :: as, b :: bs =>
    if a < b then true else if b < a then false else lexLe as bs

/-- Helper for `keyToIdx`: index (counting from `i`) of the last
occurrence of `k`. -/
def kiAux : List Bytes → Bytes → Nat → Option Nat
  | [], _, _ => none
  | t :: rest, k, i =>
    match kiAux rest k (i + 1) with
    | some j => some j
    | none => if t = k then some i else none

/-- The `keyToIndex` map: index of the last field whose `key` tag is
`k` (later entries of a Go map-building loop overwrite earlier ones; a
missing key gives the map's zero value, 0). -/
def keyToIdx (tags : List Bytes) (k : Bytes) : Nat :=
  (kiAux tags k 0).getD 0

/-- `v.Field(keyToIndex[key])`: the value of field `i`. -/
def fieldValAt (fs : List (Bytes × Option Bytes × HVal)) (i : Nat) : HVal :=
  (fs.getD i ([], none, .vunsup)).2.2

theorem sizeOf_fieldValAt_le (fs : List (Bytes × Option Bytes × HVal)) (i : Nat) :
    sizeOf (fieldValAt fs i) ≤ sizeOf fs := by
  induction fs generalizing i with
  | nil => simp [fieldValAt, List.getD]
  | cons f rest ih =>
    cases i with
    | zero =>
      obtain ⟨k, b, v⟩ := f
      simp only [fieldValAt, List.getD_cons_zero]
      simp
      omega
    | succ n =>
      have h := ih n
      simp only [fieldValAt, List.getD_cons_succ] at h ⊢
      have h2 : sizeOf rest ≤ sizeOf (f :: rest) := by
        simp
        try omega
      omega

mutual

/-- `marshal`: dispatch on the value's kind.  Returns the new builder
contents and the error, if any. -/
def marshal (v : HVal) (w : Bytes) : Bytes × Option EErr :=
  match v with
  | .viface x => marshal x w
  | .vint _ i => (marshalInt i w, none)
  | .vuint _ u => (marshalInt (uintToInt u) w, none)
  | .vstr s => marshalString s w
  | .vslice _ es => marshalListA es (w ++ [108])
  | .vrecord fs => marshalStruct fs w
  | .vunsup => (w, some .unsupported)
  termination_by (sizeOf v, 1, 0)
  decreasing_by
  all_goals simp_wf
  all_goals simp only [Prod.lex_def]
  all_goals (first | omega | (simp; omega) | simp)

/-- The loop of `marshalList`: encode each element, aborting on the
first error; write `e` after the last element. -/
def marshalListA (es : List HVal) (w : Bytes) : Bytes × Option EErr :=
  match es with
  | [] => (w ++ [101], none)
  | e :: rest =>
    match marshal e w with
    | (w', none) => marshalListA rest w'
    | (w', some err) => (w', some err)
  termination_by (sizeOf es, 1, 0)
  decreasing_by
  all_goals simp_wf
  all_goals simp only [Prod.lex_def]
  all_goals (first | omega | (simp; omega) | simp)

/-- `marshalStruct`: collect every field's `key` tag (error if one is
empty), sort the tags, then write `d`, each tag as a string node followed
by the field's encoding, and `e`.  The error of the recursive `marshal`
on the field value is ignored, as in the source. -/
def marshalStruct (fs : List (Bytes × Option Bytes × HVal)) (w : Bytes) :
    Bytes × Option EErr :=
  let tags := fs.map (·.1)
  if tags.contains [] then (w, some .missingKeyTag)
  else marshalKeysA fs (tags.mergeSort lexLe) (w ++ [100])
  termination_by (sizeOf fs, 3, 0)
  decreasing_by
  all_goals simp_wf
  all_goals simp only [Prod.lex_def]
  all_goals (first | omega | (simp; omega) | simp)

/-- The emission loop of `marshalStruct`, over the sorted keys. -/
def marshalKeysA (fs : List (Bytes × Option Bytes × HVal)) (keys : List Bytes)
    (w : Bytes) : Bytes × Option EErr :=
  match keys with
  | [] => (w ++ [101], none)
  | k :: rest =>
    match marshalString k w with
    | (w', some err) => (w', some err)
    | (w', none) =>
      let r := marshal (fieldValAt fs (keyToIdx (fs.map (·.1)) k)) w'
      marshalKeysA fs rest r.1
  termination_by (sizeOf fs, 2, keys.length)
  decreasing_by
  all_goals simp_wf
  all_goals simp only [Prod.lex_def]
  all_goals try (have hfv := sizeOf_fieldValAt_le fs (keyToIdx (List.map (fun x => x.1) fs) k))
  all_goals (first | omega | (simp; omega) | simp)

end

/-- `Marshal`: run `marshal` on a fresh builder; discard the output on
error. -/
def Marshal (v : HVal) : Except EErr Bytes :=
  match marshal v [] with
  | (_, some err) => .error err
  | (w, none) => .ok w

/-! ## Decoder (`src/unnamed/part_007`)

The decoder is two-phase: `Unmarshal` first parses the whole input with
`noOpValueSetter` (no assignments), and only on success parses again with
`valueSetter`.  We model the `reflect.Value` target as an
`Option HVal` — `none` is the nil `*reflect.Value` used to skip the
values of unmapped dictionary keys — and thread the (possibly mutated)
target through every call, returning it alongside the parse result, so
that partial mutation is represented exactly.  Recursion is bounded by
explicit fuel; `DErr.outOfFuel` never occurs for the inputs the theorems
below consider. -/

/-- Decoder errors (and modelled runtime panics). -/
inductive DErr where
  | noData (o : Nat)
  | unexpectedByte (o : Nat)
  | strLen (o : Nat)
  | strColon (o : Nat)
  | strOverrun (o : Nat) (len : Int)
  | intParse (o : Nat)
  | intTerm (o : Nat)
  | listTerm (o : Nat)
  | dictTerm (o : Nat)
  | keyNotString (o : Nat)
  | mismatch (o : Nat)
  | trailing (o : Nat)
  | notPointer
  | panicked
  | outOfFuel
deriving DecidableEq

/-- The `valueSetterInterface` of the decoder. -/
structure Setter where
  setInt : HVal -> Int -> HVal
  setString : HVal -> Bytes -> HVal
  append : HVal -> HVal -> HVal

/-- `valueSetter`: delegates to the `reflect.Value` modifiers. -/
def valueSetter : Setter where
  setInt := fun v i => match v with | .vint w _ => .vint w i | x => x
  setString := fun v s => match v with | .vstr _ => .vstr s | x => x
  append := fun t e => match t with | .vslice z es => .vslice z (es ++ [e]) | x => x

/-- `noOpValueSetter`: does nothing. -/
def noOpValueSetter : Setter where
  setInt := fun v _ => v
  setString := fun v _ => v
  append := fun t _ => t

mutual

/-- `reflect.New` on a type: the zero value of a value's shape. -/
def zero : HVal -> HVal
  | .vint w _ => .vint w 0
  | .vuint w _ => .vuint w 0
  | .viface v => .viface (zero v)
  | .vstr _ => .vstr []
  | .vslice z _ => .vslice z []
  | .vrecord fs => .vrecord (zeroFields fs)
  | .vunsup => .vunsup

/-- `zero` on a field list. -/
def zeroFields : List (Bytes × Option Bytes × HVal) -> List (Bytes × Option Bytes × HVal)
  | [] => []
  | (k, b, v) :: rest => (k, b, zero v) :: zeroFields rest

end

mutual

/-- Type identity of two host values (same `reflect.Type`): the values
may differ, the shapes — including slice element types and struct field
tags — must agree. -/
def sameShape : HVal -> HVal -> Bool
  | .vint w _, .vint w2 _ => w = w2
  | .vuint w _, .vuint w2 _ => w = w2
  | .viface a, .viface b => sameShape a b
  | .vstr _, .vstr _ => true
  | .vslice z _, .vslice z2 _ => sameShape z z2
  | .vrecord fs, .vrecord fs2 => sameShapeFields fs fs2
  | .vunsup, .vunsup => true
  | _, _ => false

/-- `sameShape` on field lists: equal tags and shapes, fieldwise. -/
def sameShapeFields : List (Bytes × Option Bytes × HVal) ->
    List (Bytes × Option Bytes × HVal) -> Bool
  | [], [] => true
  | (k, b, v) :: rest, (k2, b2, v2) :: rest2 =>
    k = k2 && b = b2 && sameShape v v2 && sameShapeFields rest rest2
  | _, _ => false

end

/-- Helper for `lookupFieldIdx`: index (counting from `i`) of the last
field whose `bencode` tag is `key`. -/
def lfAux : List (Bytes × Option Bytes × HVal) → Bytes → Nat → Option Nat
  | [], _, _ => none
  | f :: rest, key, i =>
    match lfAux rest key (i + 1) with
    | some j => some j
    | none => if f.2.1 = some key then some i else none

/-- The `structValues` map of `unmarshalDict`: the index of the last
field whose `bencode` tag is `key` (fields without the tag are skipped;
later map insertions overwrite earlier ones, so the last match wins). -/
def lookupFieldIdx (fs : List (Bytes × Option Bytes × HVal)) (key : Bytes) :
    Option Nat :=
  lfAux fs key 0

/-- Store a decoded value back into field `i` of a record's field list
(the mutation through the stored field address). -/
def setFieldVal : List (Bytes × Option Bytes × HVal) -> Nat -> HVal ->
    List (Bytes × Option Bytes × HVal)
  | [], _, _ => []
  | (k, b, _) :: rest, 0, v => (k, b, v) :: rest
  | f :: rest, n + 1, v => f :: setFieldVal rest n v

/-- `stringIndices`: parse a length prefix and return the start and
limit of the string's bytes. -/
def stringIndices (offset : Nat) (data : Bytes) : Except DErr (Nat × Nat) :=
  let lim := intLimit offset data
  match goSlice data offset lim with
  | none => .error .panicked
  | some sub =>
    match goAtoi sub with
    | none => .error (.strLen offset)
    | some length =>
      if lim ≥ data.length || !(data.getD lim 0 == 58) then .error (.strColon offset)
      else if (lim + 1 : Int) + length > data.length then
        .error (.strOverrun offset length)
      else .ok (lim + 1, lim + 1 + length.toNat)

/-- `unmarshalString`: parse the node, check the target is a string,
store the bytes, advance to the limit. -/
def unmarshalString (st : Setter) (data : Bytes) (t : Option HVal)
    (offset : Nat) : Option HVal × Except DErr Nat :=
  match stringIndices offset data with
  | .error e => (t, .error e)
  | .ok (start, limit) =>
    match t with
    | some tv =>
      match tv with
      | .vstr _ => (some (st.setString tv (extract data start limit)), .ok limit)
      | _ => (t, .error (.mismatch offset))
    | none => (t, .ok limit)

/-- `unmarshalInt`: scan the digit run after the (possible) sign
position, `strconv.Atoi` it, require the `e` terminator, check the
target is an `int64`, store the value. -/
def unmarshalInt (st : Setter) (data : Bytes) (t : Option HVal)
    (offset : Nat) : Option HVal × Except DErr Nat :=
  let intStart := offset + 1
  let lim := intLimit (intStart + 1) data
  match goSlice data intStart lim with
  | none => (t, .error .panicked)
  | some sub =>
    match goAtoi sub with
    | none => (t, .error (.intParse intStart))
    | some i =>
      if lim ≥ data.length || !(data.getD lim 0 == 101) then (t, .error (.intTerm lim))
      else
        match t with
        | some tv =>
          match tv with
          | .vint .w64 _ => (some (st.setInt tv i), .ok (lim + 1))
          | _ => (t, .error (.mismatch offset))
        | none => (t, .ok (lim + 1))

/-- `reflect.New(value.Elem().Type().Elem())` in the element loop: a
fresh zero value of the slice target's element type (irrelevant when the
target is not a slice, which the type check rules out). -/
def elemZOf (tv : HVal) : HVal :=
  match tv with
  | .vslice z _ => zero z
  | _ => .vunsup

/-- Dispatch tags for the mutually recursive decoder functions
(`unmarshalNext`, `unmarshalList` and its loop, `unmarshalDict` and its
loop); the recursion is expressed as one function, structural in the
fuel, so that it computes by reduction. -/
inductive DMode where
  | next | list | lloop | dict | dloop

/-- The decoder's mutual recursion.  `.next` is `decoder.unmarshalNext`
(single-byte lookahead dispatch); `.list` is `unmarshalList` (slice
type check, consume `l`); `.lloop` is its element loop (while in bounds
and not at `e`, decode into a fresh zero element and append, then
require the terminator); `.dict` is `unmarshalDict` (struct type check,
consume `d`); `.dloop` is its entry loop (require a string key, look it
up among the fields' `bencode` tags, decode the value into the mapped
field — or into the nil target when the key is unmapped — then require
the terminator). -/
def decodeStep (st : Setter) (data : Bytes) :
    Nat → DMode → Option HVal → Nat → Option HVal × Except DErr Nat
  | 0, _, t, _ => (t, .error .outOfFuel)
  | fuel + 1, .next, t, offset =>
    if data.length = 0 then (t, .error (.noData offset))
    else if offset < data.length then
      let b := data.getD offset 0
      if isDigit b then unmarshalString st data t offset
      else if b = 105 then unmarshalInt st data t offset
      else if b = 108 then decodeStep st data fuel .list t offset
      else if b = 100 then decodeStep st data fuel .dict t offset
      else (t, .error (.unexpectedByte offset))
    else (t, .error .panicked)
  | fuel + 1, .list, t, offset =>
    match t with
    | some tv =>
      match tv with
      | .vslice _ _ => decodeStep st data fuel .lloop t (offset + 1)
      | _ => (t, .error (.mismatch offset))
    | none => decodeStep st data fuel .lloop t (offset + 1)
  | fuel + 1, .lloop, t, offset =>
    if offset < data.length ∧ data.getD offset 0 ≠ 101 then
      match t with
      | none =>
        match decodeStep st data fuel .next none offset with
        | (_, .error e) => (none, .error e)
        | (_, .ok o2) => decodeStep st data fuel .lloop none o2
      | some tv =>
        let elemZ := elemZOf tv
        match decodeStep st data fuel .next (some elemZ) offset with
        | (_, .error e) => (some tv, .error e)
        | (elem2, .ok o2) =>
          decodeStep st data fuel .lloop (some (st.append tv (elem2.getD .vunsup))) o2
    else
      if offset ≥ data.length ∨ data.getD offset 0 ≠ 101 then
        (t, .error (.listTerm offset))
      else (t, .ok (offset + 1))
  | fuel + 1, .dict, t, offset =>
    match t with
    | some tv =>
      match tv with
      | .vrecord _ => decodeStep st data fuel .dloop t (offset + 1)
      | _ => (t, .error (.mismatch offset))
    | none => decodeStep st data fuel .dloop t (offset + 1)
  | fuel + 1, .dloop, t, offset =>
    if offset < data.length ∧ data.getD offset 0 ≠ 101 then
      if !isDigit (data.getD offset 0) then (t, .error (.keyNotString offset))
      else
        match stringIndices offset data with
        | .error e => (t, .error e)
        | .ok (start, limit) =>
          let key := extract data start limit
          match t with
          | some (.vrecord fs) =>
            match lookupFieldIdx fs key with
            | some i =>
              match decodeStep st data fuel .next (some (fieldValAt fs i)) limit with
              | (fv2, res) =>
                let t2 := some (HVal.vrecord (setFieldVal fs i (fv2.getD (fieldValAt fs i))))
                match res with
                | .error e => (t2, .error e)
                | .ok o2 => decodeStep st data fuel .dloop t2 o2
            | none =>
              match decodeStep st data fuel .next none limit with
              | (_, .error e) => (t, .error e)
              | (_, .ok o2) => decodeStep st data fuel .dloop t o2
          | _ =>
            match decodeStep st data fuel .next none limit with
            | (_, .error e) => (t, .error e)
            | (_, .ok o2) => decodeStep st data fuel .dloop t o2
    else
      if offset ≥ data.length ∨ data.getD offset 0 ≠ 101 then
        (t, .error (.dictTerm offset))
      else (t, .ok (offset + 1))

/-- `decoder.unmarshalNext`. -/
def unmarshalNext (st : Setter) (fuel : Nat) (data : Bytes) (t : Option HVal)
    (offset : Nat) : Option HVal × Except DErr Nat :=
  decodeStep st data fuel .next t offset

/-- `unmarshalList`. -/
def unmarshalList (st : Setter) (fuel : Nat) (data : Bytes) (t : Option HVal)
    (offset : Nat) : Option HVal × Except DErr Nat :=
  decodeStep st data fuel .list t offset

/-- `unmarshalDict`. -/
def unmarshalDict (st : Setter) (fuel : Nat) (data : Bytes) (t : Option HVal)
    (offset : Nat) : Option HVal × Except DErr Nat :=
  decodeStep st data fuel .dict t offset

/-- The argument `v` of `Unmarshal`: a non-nil pointer to a typed target,
a typed nil pointer, or a non-pointer value. -/
inductive GoArg where
  | ptr (t : HVal)
  | nilPtr
  | nonPtr
deriving Inhabited

/-- Fuel for a top-level parse.  Every recursive call of the decoder
either consumes an input byte first or descends once, so any fuel beyond
`4 * len + 8` is never exhausted on the inputs the theorems consider. -/
def topFuel (data : Bytes) : Nat := 4 * data.length + 8

/-- `Unmarshal`: reject non-pointer and nil-pointer arguments, validate
with the no-op setter, reject trailing data, then decode for real. -/
def Unmarshal (data : Bytes) (v : GoArg) : Except DErr Unit × GoArg :=
  match v with
  | .nilPtr => (.error .notPointer, v)
  | .nonPtr => (.error .notPointer, v)
  | .ptr t =>
    match unmarshalNext noOpValueSetter (topFuel data) data (some t) 0 with
    | (t1, .error e) => (.error e, .ptr (t1.getD t))
    | (t1, .ok o) =>
      if o < data.length then (.error (.trailing o), .ptr (t1.getD t))
      else
        match unmarshalNext valueSetter (topFuel data) data (some (t1.getD t)) 0 with
        | (t2, .error e) => (.error e, .ptr (t2.getD t))
        | (t2, .ok _) => (.ok (), .ptr (t2.getD t))

/-! ## Shape lemmas (used by the atomicity and round-trip proofs) -/

/-- `sameShape` lifted to the optional targets (`nil` matches `nil`). -/
def sameShapeOpt : Option HVal → Option HVal → Bool
  | none, none => true
  | some a, some b => sameShape a b
  | _, _ => false

mutual

theorem sameShape_refl (v : HVal) : sameShape v v = true := by
  cases v with
  | vint w i => simp [sameShape]
  | vuint w u => simp [sameShape]
  | viface x => simp [sameShape, sameShape_refl x]
  | vstr s => simp [sameShape]
  | vslice z es => simp [sameShape, sameShape_refl z]
  | vrecord fs => simp [sameShape, sameShapeFields_refl fs]
  | vunsup => simp [sameShape]

theorem sameShapeFields_refl (fs : List (Bytes × Option Bytes × HVal)) :
    sameShapeFields fs fs = true := by
  cases fs with
  | nil => simp [sameShapeFields]
  | cons f rest =>
    obtain ⟨k, b, v⟩ := f
    simp [sameShapeFields, sameShape_refl v, sameShapeFields_refl rest]

end

/-- The two setters the decoder instantiates its `valueSetterInterface`
with. -/
def StdSetter (st : Setter) : Prop :=
  st = valueSetter ∨ st = noOpValueSetter

/-- Either setter's `SetInt` keeps the target's shape, and hence its
shape relation to any other value. -/
theorem setInt_shape (st : Setter) (h : StdSetter st) (tv1 tv2 : HVal) (i : Int)
    (hs : sameShape tv1 tv2 = true) :
    sameShape (st.setInt tv1 i) tv2 = true := by
  rcases h with h | h <;> subst h
  · cases tv1 <;> cases tv2 <;> simp_all [sameShape, valueSetter]
  · exact hs

/-- Either setter's `SetString` keeps the target's shape. -/
theorem setString_shape (st : Setter) (h : StdSetter st) (tv1 tv2 : HVal)
    (s : Bytes) (hs : sameShape tv1 tv2 = true) :
    sameShape (st.setString tv1 s) tv2 = true := by
  rcases h with h | h <;> subst h
  · cases tv1 <;> cases tv2 <;> simp_all [sameShape, valueSetter]
  · exact hs

/-- Either setter's `Append` keeps the target's shape (a slice's shape
is its element type, not its contents). -/
theorem append_shape (st : Setter) (h : StdSetter st) (tv1 tv2 e : HVal)
    (hs : sameShape tv1 tv2 = true) :
    sameShape (st.append tv1 e) tv2 = true := by
  rcases h with h | h <;> subst h
  · cases tv1 <;> cases tv2 <;> simp_all [sameShape, valueSetter]
  · exact hs

/-- Storing a field's own value back is the identity. -/
theorem setFieldVal_self (fs : List (Bytes × Option Bytes × HVal)) (i : Nat) :
    setFieldVal fs i (fieldValAt fs i) = fs := by
  induction fs generalizing i with
  | nil => cases i <;> simp [setFieldVal]
  | cons f rest ih =>
    obtain ⟨k, b, v⟩ := f
    cases i with
    | zero => simp [setFieldVal, fieldValAt]
    | succ n =>
      simp only [setFieldVal, fieldValAt, List.getD_cons_succ]
      rw [show (rest.getD n ([], none, HVal.vunsup)).2.2 = fieldValAt rest n from rfl,
        ih n]

/-- Shape-equal field lists give the same key lookup results. -/
theorem lfAux_congr (fs1 fs2 : List (Bytes × Option Bytes × HVal)) (key : Bytes)
    (i : Nat) (h : sameShapeFields fs1 fs2 = true) :
    lfAux fs1 key i = lfAux fs2 key i := by
  induction fs1 generalizing fs2 i with
  | nil => cases fs2 <;> simp_all [sameShapeFields, lfAux]
  | cons f1 rest1 ih =>
    cases fs2 with
    | nil => simp_all [sameShapeFields]
    | cons f2 rest2 =>
      obtain ⟨k1, b1, v1⟩ := f1
      obtain ⟨k2, b2, v2⟩ := f2
      simp only [sameShapeFields, Bool.and_eq_true, decide_eq_true_eq] at h
      obtain ⟨⟨⟨hk, hb⟩, hv⟩, hrest⟩ := h
      simp only [lfAux, ih rest2 (i + 1) hrest, hb]

theorem lookupFieldIdx_congr (fs1 fs2 : List (Bytes × Option Bytes × HVal))
    (key : Bytes) (h : sameShapeFields fs1 fs2 = true) :
    lookupFieldIdx fs1 key = lookupFieldIdx fs2 key :=
  lfAux_congr fs1 fs2 key 0 h

/-- Shape-equal field lists have shape-equal field values. -/
theorem fieldValAt_congr (fs1 fs2 : List (Bytes × Option Bytes × HVal)) (i : Nat)
    (h : sameShapeFields fs1 fs2 = true) :
    sameShape (fieldValAt fs1 i) (fieldValAt fs2 i) = true := by
  induction fs1 generalizing fs2 i with
  | nil => cases fs2 <;> simp_all [sameShapeFields, fieldValAt, List.getD, sameShape]
  | cons f1 rest1 ih =>
    cases fs2 with
    | nil => simp_all [sameShapeFields]
    | cons f2 rest2 =>
      obtain ⟨k1, b1, v1⟩ := f1
      obtain ⟨k2, b2, v2⟩ := f2
      simp only [sameShapeFields, Bool.and_eq_true, decide_eq_true_eq] at h
      obtain ⟨⟨⟨hk, hb⟩, hv⟩, hrest⟩ := h
      cases i with
      | zero => simpa [fieldValAt] using hv
      | succ n => simpa [fieldValAt] using ih rest2 n hrest

/-- Updating the same field with shape-equal values preserves fieldwise
shape equality. -/
theorem setFieldVal_congr (fs1 fs2 : List (Bytes × Option Bytes × HVal))
    (i : Nat) (a b : HVal) (hf : sameShapeFields fs1 fs2 = true)
    (hab : sameShape a b = true) :
    sameShapeFields (setFieldVal fs1 i a) (setFieldVal fs2 i b) = true := by
  induction fs1 generalizing fs2 i with
  | nil => cases fs2 <;> simp_all [sameShapeFields, setFieldVal]
  | cons f1 rest1 ih =>
    cases fs2 with
    | nil => simp_all [sameShapeFields]
    | cons f2 rest2 =>
      obtain ⟨k1, b1, v1⟩ := f1
      obtain ⟨k2, b2, v2⟩ := f2
      simp only [sameShapeFields, Bool.and_eq_true, decide_eq_true_eq] at hf
      obtain ⟨⟨⟨hk, hb⟩, hv⟩, hrest⟩ := hf
      cases i with
      | zero =>
        simp only [setFieldVal, sameShapeFields, Bool.and_eq_true, decide_eq_true_eq]
        exact ⟨⟨⟨hk, hb⟩, hab⟩, hrest⟩
      | succ n =>
        simp only [setFieldVal, sameShapeFields, Bool.and_eq_true, decide_eq_true_eq]
        exact ⟨⟨⟨hk, hb⟩, hv⟩, ih rest2 n hrest⟩

mutual

theorem zero_congr (a b : HVal) (h : sameShape a b = true) :
    sameShape (zero a) (zero b) = true := by
  cases a <;> cases b <;> simp_all [sameShape, zero]
  case viface.viface x y => exact zero_congr x y h
  case vrecord.vrecord fs1 fs2 => exact zeroFields_congr fs1 fs2 h

theorem zeroFields_congr (fs1 fs2 : List (Bytes × Option Bytes × HVal))
    (h : sameShapeFields fs1 fs2 = true) :
    sameShapeFields (zeroFields fs1) (zeroFields fs2) = true := by
  cases fs1 with
  | nil => cases fs2 <;> simp_all [sameShapeFields, zeroFields]
  | cons f1 rest1 =>
    cases fs2 with
    | nil => simp_all [sameShapeFields]
    | cons f2 rest2 =>
      obtain ⟨k1, b1, v1⟩ := f1
      obtain ⟨k2, b2, v2⟩ := f2
      simp only [sameShapeFields, Bool.and_eq_true, decide_eq_true_eq] at h
      obtain ⟨⟨⟨hk, hb⟩, hv⟩, hrest⟩ := h
      simp only [zeroFields, sameShapeFields, Bool.and_eq_true, decide_eq_true_eq]
      exact ⟨⟨⟨hk, hb⟩, zero_congr v1 v2 hv⟩, zeroFields_congr rest1 rest2 hrest⟩

end

/-! ## The validation pass does not modify the target -/

theorem unmarshalString_noOp_fst (data : Bytes) (t : Option HVal) (offset : Nat) :
    (unmarshalString noOpValueSetter data t offset).1 = t := by
  simp only [unmarshalString]
  cases h : stringIndices offset data with
  | error e => simp [h]
  | ok p =>
    obtain ⟨start, limit⟩ := p
    simp only [h]
    cases t with
    | none => rfl
    | some tv => cases tv <;> rfl

theorem unmarshalInt_noOp_fst (data : Bytes) (t : Option HVal) (offset : Nat) :
    (unmarshalInt noOpValueSetter data t offset).1 = t := by
  simp only [unmarshalInt]
  cases hs : goSlice data (offset + 1) (intLimit (offset + 1 + 1) data) with
  | none => simp [hs]
  | some sub =>
    simp only [hs]
    cases ha : goAtoi sub with
    | none => simp [ha]
    | some i =>
      simp only [ha]
      split
      · rfl
      · cases t with
        | none => rfl
        | some tv =>
          cases tv with
          | vint w j => cases w <;> rfl
          | vuint w u => rfl
          | viface x => rfl
          | vstr s => rfl
          | vslice z es => rfl
          | vrecord fs => rfl
          | vunsup => rfl

/-- The validation pass (`noOpValueSetter`) returns its target entirely
unchanged, whatever the parse outcome. -/
theorem decodeStep_noOp_fst (data : Bytes) (fuel : Nat) :
    ∀ (mode : DMode) (t : Option HVal) (offset : Nat),
      (decodeStep noOpValueSetter data fuel mode t offset).1 = t := by
  induction fuel with
  | zero => intro mode t o; rfl
  | succ fuel ih =>
    intro mode t o
    cases mode with
    | next =>
      simp only [decodeStep]
      split
      · rfl
      · split
        · split
          · exact unmarshalString_noOp_fst data t o
          · split
            · exact unmarshalInt_noOp_fst data t o
            · split
              · exact ih .list t o
              · split
                · exact ih .dict t o
                · rfl
        · rfl
    | list =>
      simp only [decodeStep]
      cases t with
      | none => exact ih .lloop none (o + 1)
      | some tv =>
        cases tv with
        | vslice z es => exact ih .lloop (some (.vslice z es)) (o + 1)
        | vint w i => rfl
        | vuint w u => rfl
        | viface x => rfl
        | vstr s => rfl
        | vrecord fs => rfl
        | vunsup => rfl
    | lloop =>
      simp only [decodeStep]
      split
      · cases t with
        | none =>
          cases hres : decodeStep noOpValueSetter data fuel .next none o with
          | mk fst snd =>
            cases snd with
            | error e => simp [hres]
            | ok o2 => simp only [hres]; exact ih .lloop none o2
        | some tv =>
          cases hres : decodeStep noOpValueSetter data fuel .next
              (some (elemZOf tv)) o with
          | mk fst snd =>
            cases snd with
            | error e => simp [hres]
            | ok o2 =>
              simp only [hres]
              have h2 := ih .lloop (some (noOpValueSetter.append tv (fst.getD .vunsup))) o2
              simpa [noOpValueSetter] using h2
      · split
        · rfl
        · rfl
    | dict =>
      simp only [decodeStep]
      cases t with
      | none => exact ih .dloop none (o + 1)
      | some tv =>
        cases tv with
        | vrecord fs => exact ih .dloop (some (.vrecord fs)) (o + 1)
        | vint w i => rfl
        | vuint w u => rfl
        | viface x => rfl
        | vstr s => rfl
        | vslice z es => rfl
        | vunsup => rfl
    | dloop =>
      simp only [decodeStep]
      split
      · split
        · rfl
        · cases hsi : stringIndices o data with
          | error e => simp [hsi]
          | ok p =>
            obtain ⟨start, limit⟩ := p
            simp only [hsi]
            cases t with
            | none =>
              cases hres : decodeStep noOpValueSetter data fuel .next none limit with
              | mk fst snd =>
                cases snd with
                | error e => simp [hres]
                | ok o2 => simp only [hres]; exact ih .dloop none o2
            | some tv =>
              cases tv with
              | vrecord fs =>
                cases hlk : lookupFieldIdx fs (extract data start limit) with
                | none =>
                  simp only [hlk]
                  cases hres : decodeStep noOpValueSetter data fuel .next none limit with
                  | mk fst snd =>
                    cases snd with
                    | error e => simp [hres]
                    | ok o2 => simp only [hres]; exact ih .dloop (some (.vrecord fs)) o2
                | some i =>
                  simp only [hlk]
                  cases hres : decodeStep noOpValueSetter data fuel .next
                      (some (fieldValAt fs i)) limit with
                  | mk fst snd =>
                    have hfst : fst = some (fieldValAt fs i) := by
                      have h3 := ih .next (some (fieldValAt fs i)) limit
                      rw [hres] at h3
                      exact h3
                    cases snd with
                    | error e =>
                      simp [hres, hfst, setFieldVal_self]
                    | ok o2 =>
                      simp only [hres, hfst, Option.getD_some, setFieldVal_self]
                      exact ih .dloop (some (HVal.vrecord fs)) o2
              | vint w i =>
                cases hres : decodeStep noOpValueSetter data fuel .next none limit with
                | mk fst snd =>
                  cases snd with
                  | error e => simp [hres]
                  | ok o2 => simp only [hres]; exact ih .dloop (some (.vint w i)) o2
              | vuint w u =>
                cases hres : decodeStep noOpValueSetter data fuel .next none limit with
                | mk fst snd =>
                  cases snd with
                  | error e => simp [hres]
                  | ok o2 => simp only [hres]; exact ih .dloop (some (.vuint w u)) o2
              | viface x =>
                cases hres : decodeStep noOpValueSetter data fuel .next none limit with
                | mk fst snd =>
                  cases snd with
                  | error e => simp [hres]
                  | ok o2 => simp only [hres]; exact ih .dloop (some (.viface x)) o2
              | vstr str =>
                cases hres : decodeStep noOpValueSetter data fuel .next none limit with
                | mk fst snd =>
                  cases snd with
                  | error e => simp [hres]
                  | ok o2 => simp only [hres]; exact ih .dloop (some (.vstr str)) o2
              | vslice z es =>
                cases hres : decodeStep noOpValueSetter data fuel .next none limit with
                | mk fst snd =>
                  cases snd with
                  | error e => simp [hres]
                  | ok o2 => simp only [hres]; exact ih .dloop (some (.vslice z es)) o2
              | vunsup =>
                cases hres : decodeStep noOpValueSetter data fuel .next none limit with
                | mk fst snd =>
                  cases snd with
                  | error e => simp [hres]
                  | ok o2 => simp only [hres]; exact ih .dloop (some .vunsup) o2
      · split
        · rfl
        · rfl

/-- `unmarshalNext` with the no-op setter returns its target unchanged. -/
theorem unmarshalNext_noOp_fst (fuel : Nat) (data : Bytes) (t : Option HVal)
    (offset : Nat) :
    (unmarshalNext noOpValueSetter fuel data t offset).1 = t :=
  decodeStep_noOp_fst data fuel .next t offset

/-! ## The parse outcome depends only on the target's shape

The two passes of `Unmarshal` differ only in the setter and (on the
second pass) in the contents already present in the target; the
following lemmas show that every parse decision — the returned offset or
error — is identical across shape-equal targets and either setter, and
that the target's shape is preserved throughout. -/

theorem getD_shape (o1 o2 : Option HVal) (d1 d2 : HVal)
    (h : sameShapeOpt o1 o2 = true) (hd : sameShape d1 d2 = true) :
    sameShape (o1.getD d1) (o2.getD d2) = true := by
  cases o1 <;> cases o2 <;> simp_all [sameShapeOpt]

theorem elemZ_shape (tv1 tv2 : HVal) (h : sameShape tv1 tv2 = true) :
    sameShape (elemZOf tv1) (elemZOf tv2) = true := by
  simp only [elemZOf]
  cases tv1 <;> cases tv2 <;>
    first
      | exact Bool.noConfusion h
      | exact zero_congr _ _ (by simpa [sameShape] using h)
      | simp [sameShape]

theorem setInt_shape_pair (st1 st2 : Setter) (h1 : StdSetter st1)
    (h2 : StdSetter st2) (tv1 tv2 : HVal) (i1 i2 : Int)
    (hs : sameShape tv1 tv2 = true) :
    sameShape (st1.setInt tv1 i1) (st2.setInt tv2 i2) = true := by
  rcases h1 with h1 | h1 <;> rcases h2 with h2 | h2 <;> subst h1 <;> subst h2 <;>
    cases tv1 <;> cases tv2 <;> simp_all [sameShape, valueSetter, noOpValueSetter]

theorem setString_shape_pair (st1 st2 : Setter) (h1 : StdSetter st1)
    (h2 : StdSetter st2) (tv1 tv2 : HVal) (s1 s2 : Bytes)
    (hs : sameShape tv1 tv2 = true) :
    sameShape (st1.setString tv1 s1) (st2.setString tv2 s2) = true := by
  rcases h1 with h1 | h1 <;> rcases h2 with h2 | h2 <;> subst h1 <;> subst h2 <;>
    cases tv1 <;> cases tv2 <;> simp_all [sameShape, valueSetter, noOpValueSetter]

theorem append_shape_pair (st1 st2 : Setter) (h1 : StdSetter st1)
    (h2 : StdSetter st2) (tv1 tv2 e1 e2 : HVal)
    (hs : sameShape tv1 tv2 = true) :
    sameShape (st1.append tv1 e1) (st2.append tv2 e2) = true := by
  rcases h1 with h1 | h1 <;> rcases h2 with h2 | h2 <;> subst h1 <;> subst h2 <;>
    cases tv1 <;> cases tv2 <;> simp_all [sameShape, valueSetter, noOpValueSetter]

theorem unmarshalString_shape (st1 st2 : Setter) (data : Bytes)
    (t1 t2 : Option HVal) (offset : Nat) (h1 : StdSetter st1) (h2 : StdSetter st2)
    (hs : sameShapeOpt t1 t2 = true) :
    (unmarshalString st1 data t1 offset).2 = (unmarshalString st2 data t2 offset).2 ∧
    sameShapeOpt (unmarshalString st1 data t1 offset).1
      (unmarshalString st2 data t2 offset).1 = true := by
  simp only [unmarshalString]
  cases h : stringIndices offset data with
  | error e => simp [h, hs]
  | ok p =>
    obtain ⟨start, limit⟩ := p
    simp only [h]
    cases t1 with
    | none => cases t2 <;> simp_all [sameShapeOpt]
    | some tv1 =>
      cases t2 with
      | none => simp_all [sameShapeOpt]
      | some tv2 =>
        simp only [sameShapeOpt] at hs
        cases tv1 <;> cases tv2 <;> simp_all [sameShape, sameShapeOpt]
        exact setString_shape_pair st1 st2 h1 h2 _ _ _ _ (by simp [sameShape])

theorem unmarshalInt_shape (st1 st2 : Setter) (data : Bytes)
    (t1 t2 : Option HVal) (offset : Nat) (h1 : StdSetter st1) (h2 : StdSetter st2)
    (hs : sameShapeOpt t1 t2 = true) :
    (unmarshalInt st1 data t1 offset).2 = (unmarshalInt st2 data t2 offset).2 ∧
    sameShapeOpt (unmarshalInt st1 data t1 offset).1
      (unmarshalInt st2 data t2 offset).1 = true := by
  simp only [unmarshalInt]
  cases hsl : goSlice data (offset + 1) (intLimit (offset + 1 + 1) data) with
  | none => simp [hsl, hs]
  | some sub =>
    simp only [hsl]
    cases ha : goAtoi sub with
    | none => simp [ha, hs]
    | some i =>
      simp only [ha]
      split
      · simp [hs]
      · cases t1 with
        | none => cases t2 <;> simp_all [sameShapeOpt]
        | some tv1 =>
          cases t2 with
          | none => simp_all [sameShapeOpt]
          | some tv2 =>
            simp only [sameShapeOpt] at hs
            cases tv1 with
            | vint w1 j1 =>
              cases tv2 with
              | vint w2 j2 =>
                have hw : w1 = w2 := by simpa [sameShape] using hs
                subst hw
                cases w1 <;>
                  simp_all [sameShape, sameShapeOpt] <;>
                  exact setInt_shape_pair st1 st2 h1 h2 _ _ _ _ (by simp [sameShape])
              | vuint w2 u2 => simp_all [sameShape]
              | viface x => simp_all [sameShape]
              | vstr s => simp_all [sameShape]
              | vslice z es => simp_all [sameShape]
              | vrecord fs => simp_all [sameShape]
              | vunsup => simp_all [sameShape]
            | vuint w1 u1 => cases tv2 <;> simp_all [sameShape, sameShapeOpt]
            | viface x => cases tv2 <;> simp_all [sameShape, sameShapeOpt]
            | vstr s => cases tv2 <;> simp_all [sameShape, sameShapeOpt]
            | vslice z es => cases tv2 <;> simp_all [sameShape, sameShapeOpt]
            | vrecord fs => cases tv2 <;> simp_all [sameShape, sameShapeOpt]
            | vunsup => cases tv2 <;> simp_all [sameShape, sameShapeOpt]

/-- Across shape-equal targets and either setter, every parse step
returns the same offset-or-error, and targets stay shape-equal.  This is
the invariant behind the two-phase decode: the no-op validation pass
takes exactly the branches the commit pass will take. -/
theorem decodeStep_shape (data : Bytes) (fuel : Nat) :
    ∀ (mode : DMode) (st1 st2 : Setter) (t1 t2 : Option HVal) (offset : Nat),
      StdSetter st1 → StdSetter st2 → sameShapeOpt t1 t2 = true →
      (decodeStep st1 data fuel mode t1 offset).2
        = (decodeStep st2 data fuel mode t2 offset).2 ∧
      sameShapeOpt (decodeStep st1 data fuel mode t1 offset).1
        (decodeStep st2 data fuel mode t2 offset).1 = true := by
  induction fuel with
  | zero => intro mode st1 st2 t1 t2 o _ _ hs; exact ⟨rfl, hs⟩
  | succ fuel ih =>
    intro mode st1 st2 t1 t2 o h1 h2 hs
    cases mode with
    | next =>
      simp only [decodeStep]
      split
      · exact ⟨rfl, hs⟩
      · split
        · split
          · exact unmarshalString_shape st1 st2 data t1 t2 o h1 h2 hs
          · split
            · exact unmarshalInt_shape st1 st2 data t1 t2 o h1 h2 hs
            · split
              · exact ih .list st1 st2 t1 t2 o h1 h2 hs
              · split
                · exact ih .dict st1 st2 t1 t2 o h1 h2 hs
                · exact ⟨rfl, hs⟩
        · exact ⟨rfl, hs⟩
    | list =>
      simp only [decodeStep]
      cases t1 with
      | none =>
        cases t2 with
        | none => exact ih .lloop st1 st2 none none (o + 1) h1 h2 hs
        | some tv2 => simp [sameShapeOpt] at hs
      | some tv1 =>
        cases t2 with
        | none => simp [sameShapeOpt] at hs
        | some tv2 =>
          simp only [sameShapeOpt] at hs
          cases tv1 <;> cases tv2 <;>
            first
              | exact Bool.noConfusion hs
              | exact ih .lloop st1 st2 _ _ (o + 1) h1 h2 (by simpa [sameShapeOpt])
              | exact ⟨rfl, by simpa [sameShapeOpt] using hs⟩
    | dict =>
      simp only [decodeStep]
      cases t1 with
      | none =>
        cases t2 with
        | none => exact ih .dloop st1 st2 none none (o + 1) h1 h2 hs
        | some tv2 => simp [sameShapeOpt] at hs
      | some tv1 =>
        cases t2 with
        | none => simp [sameShapeOpt] at hs
        | some tv2 =>
          simp only [sameShapeOpt] at hs
          cases tv1 <;> cases tv2 <;>
            first
              | exact Bool.noConfusion hs
              | exact ih .dloop st1 st2 _ _ (o + 1) h1 h2 (by simpa [sameShapeOpt])
              | exact ⟨rfl, by simpa [sameShapeOpt] using hs⟩
    | lloop =>
      simp only [decodeStep]
      split
      · cases t1 with
        | none =>
          cases t2 with
          | some tv2 => simp [sameShapeOpt] at hs
          | none =>
            obtain ⟨he, hsh⟩ := ih .next st1 st2 none none o h1 h2 rfl
            cases hr1 : decodeStep st1 data fuel .next none o with
            | mk f1 s1 =>
              cases hr2 : decodeStep st2 data fuel .next none o with
              | mk f2 s2 =>
                rw [hr1, hr2] at he hsh
                simp only at he hsh
                subst he
                cases s1 with
                | error e => simp [sameShapeOpt]
                | ok o2 => exact ih .lloop st1 st2 none none o2 h1 h2 rfl
        | some tv1 =>
          cases t2 with
          | none => simp [sameShapeOpt] at hs
          | some tv2 =>
            simp only [sameShapeOpt] at hs
            dsimp only
            have hez := elemZ_shape tv1 tv2 hs
            obtain ⟨he, hsh⟩ := ih .next st1 st2
              (some (elemZOf tv1)) (some (elemZOf tv2))
              o h1 h2 (by simpa [sameShapeOpt] using hez)
            cases hr1 : decodeStep st1 data fuel .next
                (some (elemZOf tv1)) o with
            | mk f1 s1 =>
              cases hr2 : decodeStep st2 data fuel .next
                  (some (elemZOf tv2)) o with
              | mk f2 s2 =>
                rw [hr1, hr2] at he hsh
                simp only at he hsh
                subst he
                cases s1 with
                | error e => exact ⟨rfl, by simpa [sameShapeOpt] using hs⟩
                | ok o2 =>
                  refine ih .lloop st1 st2 _ _ o2 h1 h2 ?_
                  simp only [sameShapeOpt]
                  exact append_shape_pair st1 st2 h1 h2 tv1 tv2 _ _ hs
      · split
        · exact ⟨rfl, hs⟩
        · exact ⟨rfl, hs⟩
    | dloop =>
      simp only [decodeStep]
      split
      · split
        · exact ⟨rfl, hs⟩
        · cases hsi : stringIndices o data with
          | error e => simp [hsi, hs]
          | ok p =>
            obtain ⟨start, limit⟩ := p
            simp only [hsi]
            cases t1 with
            | none =>
              cases t2 with
              | some tv2 => simp [sameShapeOpt] at hs
              | none =>
                obtain ⟨he, hsh⟩ := ih .next st1 st2 none none limit h1 h2 rfl
                cases hr1 : decodeStep st1 data fuel .next none limit with
                | mk f1 s1 =>
                  cases hr2 : decodeStep st2 data fuel .next none limit with
                  | mk f2 s2 =>
                    rw [hr1, hr2] at he hsh
                    simp only at he hsh
                    subst he
                    cases s1 with
                    | error e => simp [sameShapeOpt]
                    | ok o2 => exact ih .dloop st1 st2 none none o2 h1 h2 rfl
            | some tv1 =>
              cases t2 with
              | none => simp [sameShapeOpt] at hs
              | some tv2 =>
                simp only [sameShapeOpt] at hs
                cases tv1 <;> cases tv2
                case vrecord.vrecord fs1 fs2 =>
                  dsimp only
                  have hf : sameShapeFields fs1 fs2 = true := by
                    simpa [sameShape] using hs
                  rw [show lookupFieldIdx fs1 (extract data start limit)
                      = lookupFieldIdx fs2 (extract data start limit) from
                    lookupFieldIdx_congr fs1 fs2 _ hf]
                  cases hlk : lookupFieldIdx fs2 (extract data start limit) with
                  | none =>
                    dsimp only
                    obtain ⟨he, hsh⟩ := ih .next st1 st2 none none limit h1 h2 rfl
                    cases hr1 : decodeStep st1 data fuel .next none limit with
                    | mk f1 s1 =>
                      cases hr2 : decodeStep st2 data fuel .next none limit with
                      | mk f2 s2 =>
                        rw [hr1, hr2] at he hsh
                        simp only at he hsh
                        subst he
                        cases s1 with
                        | error e => exact ⟨rfl, by simpa [sameShapeOpt] using hs⟩
                        | ok o2 =>
                          exact ih .dloop st1 st2 (some (.vrecord fs1))
                            (some (.vrecord fs2)) o2 h1 h2
                            (by simpa [sameShapeOpt] using hs)
                  | some i =>
                    dsimp only
                    have hfv := fieldValAt_congr fs1 fs2 i hf
                    obtain ⟨he, hsh⟩ := ih .next st1 st2
                      (some (fieldValAt fs1 i)) (some (fieldValAt fs2 i))
                      limit h1 h2 (by simpa [sameShapeOpt] using hfv)
                    cases hr1 : decodeStep st1 data fuel .next
                        (some (fieldValAt fs1 i)) limit with
                    | mk f1 s1 =>
                      cases hr2 : decodeStep st2 data fuel .next
                          (some (fieldValAt fs2 i)) limit with
                      | mk f2 s2 =>
                        rw [hr1, hr2] at he hsh
                        simp only at he hsh
                        subst he
                        dsimp only
                        have hupd : sameShapeFields
                            (setFieldVal fs1 i (f1.getD (fieldValAt fs1 i)))
                            (setFieldVal fs2 i (f2.getD (fieldValAt fs2 i))) = true :=
                          setFieldVal_congr fs1 fs2 i _ _ hf
                            (getD_shape f1 f2 _ _ hsh hfv)
                        cases s1 with
                        | error e =>
                          exact ⟨rfl, by simpa [sameShapeOpt, sameShape] using hupd⟩
                        | ok o2 =>
                          exact ih .dloop st1 st2 _ _ o2 h1 h2
                            (by simpa [sameShapeOpt, sameShape] using hupd)
                all_goals
                  first
                    | exact Bool.noConfusion hs
                    | · dsimp only
                        obtain ⟨he, hsh⟩ := ih .next st1 st2 none none limit h1 h2 rfl
                        cases hr1 : decodeStep st1 data fuel .next none limit with
                        | mk f1 s1 =>
                          cases hr2 : decodeStep st2 data fuel .next none limit with
                          | mk f2 s2 =>
                            rw [hr1, hr2] at he hsh
                            simp only at he hsh
                            subst he
                            cases s1 with
                            | error e => exact ⟨rfl, by simpa [sameShapeOpt] using hs⟩
                            | ok o2 =>
                              exact ih .dloop st1 st2 _ _ o2 h1 h2
                                (by simpa [sameShapeOpt] using hs)
      · split
        · exact ⟨rfl, hs⟩
        · exact ⟨rfl, hs⟩

/-! ## Claim theorems: concrete diagnostics and argument checking -/

/-- C8.  Diagnostic offset correctness, literal cases: decoding `"ie"`
into an integer fails at offset 1 (missing digits: `Atoi` rejects the
slice `"e"`); decoding `"i123"` fails at offset 4 (missing terminator);
decoding `"100:abc"` into a string fails citing length 100 at offset 0
because fewer than 100 bytes remain. -/
theorem claim_C8_offsets :
    Unmarshal [105, 101] (.ptr (.vint .w64 0))
      = (.error (.intParse 1), .ptr (.vint .w64 0)) ∧
    Unmarshal [105, 49, 50, 51] (.ptr (.vint .w64 0))
      = (.error (.intTerm 4), .ptr (.vint .w64 0)) ∧
    Unmarshal [49, 48, 48, 58, 97, 98, 99] (.ptr (.vstr []))
      = (.error (.strOverrun 0 100), .ptr (.vstr [])) :=
  ⟨rfl, rfl, rfl⟩

/-- C9.  For every input and every argument that is not a non-nil
pointer (a nil pointer or a non-pointer value), `Unmarshal` returns an
error immediately, leaving the argument untouched; only non-nil pointer
targets are decoded. -/
theorem claim_C9_nonpointer (data : Bytes) (arg : GoArg)
    (h : arg = .nilPtr ∨ arg = .nonPtr) :
    Unmarshal data arg = (.error .notPointer, arg) := by
  rcases h with h | h <;> subst h <;> rfl

/-- Witness for C9 at `data = "i5e"`, `arg = nilPtr`. -/
theorem claim_C9_nonpointer_witness :
    Unmarshal [105, 53, 101] GoArg.nilPtr = (.error .notPointer, .nilPtr) :=
  claim_C9_nonpointer [105, 53, 101] .nilPtr (.inl rfl)

/-- C3 (code bug).  `marshalStruct` ignores the error of the recursive
`marshal` call on a field's value (`encode.go` line 107 checks no
return value), so an error inside a record member does not abort
`Marshal`.  At the failing input — a record with one member tagged
`"a"` holding the non-ASCII string `"§"` (bytes 194, 167) —
`Marshal` succeeds and returns `"d1:ae"` (the member's value missing
from the output), even though encoding that member's value fails with
the non-ASCII error at exactly that point of the emission. -/
theorem claim_C3_error_swallowed :
    Marshal (.vrecord [([97], none, .vstr [194, 167])])
      = .ok [100, 49, 58, 97, 101] ∧
    (marshal (.vstr [194, 167]) [100, 49, 58, 97]).2
      = some (.nonASCII [194, 167]) := by
  constructor
  · simp [Marshal, marshal, marshalStruct, marshalKeysA, marshalString,
      isASCII, natToDigits, keyToIdx, kiAux, fieldValAt, List.mergeSort]
  · simp [marshal, marshalString, isASCII]

/-- C6 counterexample.  The claim states that `"i05e"`, `"i-0e"` and
`"i+5e"` are rejected as malformed integers; in fact the decoder parses
the integer body with `strconv.Atoi`, which accepts leading zeros,
`-0`, and a leading `+`, so all three decode successfully. -/
theorem claim_C6_counterexample :
    Unmarshal [105, 48, 53, 101] (.ptr (.vint .w64 0))
      = (.ok (), .ptr (.vint .w64 5)) ∧
    Unmarshal [105, 45, 48, 101] (.ptr (.vint .w64 0))
      = (.ok (), .ptr (.vint .w64 0)) ∧
    Unmarshal [105, 43, 53, 101] (.ptr (.vint .w64 0))
      = (.ok (), .ptr (.vint .w64 5)) :=
  ⟨rfl, rfl, rfl⟩

/-- C7.  Trailing-data rejection: whenever the validation pass parses a
top-level node successfully but its final cursor `o` is short of the
input's end, `Unmarshal` returns the trailing-data error stamped with
exactly `o`, the offset immediately following the parsed node, and the
target is left as the validation pass left it. -/
theorem claim_C7_trailing (data : Bytes) (t : HVal) (v : Option HVal) (o : Nat)
    (h : unmarshalNext noOpValueSetter (topFuel data) data (some t) 0 = (v, .ok o))
    (hlt : o < data.length) :
    Unmarshal data (.ptr t) = (.error (.trailing o), .ptr (v.getD t)) := by
  simp only [Unmarshal, h, hlt, if_pos]

/-- Witness for C7 at the spec's example: `"0:abc"` decoded into a
string errors with trailing data at offset 2. -/
theorem claim_C7_trailing_witness :
    Unmarshal [48, 58, 97, 98, 99] (.ptr (.vstr []))
      = (.error (.trailing 2), .ptr (.vstr [])) :=
  claim_C7_trailing [48, 58, 97, 98, 99] (.vstr []) (some (.vstr [])) 2 rfl
    (by norm_num)

/-- C10.  `marshal` encodes every unsigned kind through `int(v.Uint())`:
for a `uint64` value `u`, the digits emitted are those of `u` when
`u < 2^63` and of the two's-complement reinterpretation `u - 2^64`
otherwise. -/
theorem claim_C10_uint_wrap (u : Nat) (h : u < 2 ^ 64) :
    Marshal (.vuint .u64 u)
      = .ok (105 :: intToDigits
          (if u < 2 ^ 63 then (u : Int) else (u : Int) - 2 ^ 64) ++ [101]) := by
  simp only [Marshal, marshal, marshalInt, uintToInt, List.nil_append]

/-- Witness for C10 at `u = 2^63` (encodes as `i-9223372036854775808e`)
and at `u = 2^63 - 1` (encodes as its own digits). -/
theorem claim_C10_uint_wrap_witness :
    (2 ^ 63 : Nat) < 2 ^ 64 ∧
    Marshal (.vuint .u64 (2 ^ 63))
      = .ok (105 :: intToDigits
          (if (2 ^ 63 : Nat) < 2 ^ 63 then ((2 ^ 63 : Nat) : Int)
           else ((2 ^ 63 : Nat) : Int) - 2 ^ 64) ++ [101]) :=
  ⟨by norm_num, claim_C10_uint_wrap (2 ^ 63) (by norm_num)⟩

/-- C2.  Atomicity of decode: whenever `Unmarshal` returns an error —
a rejected argument, a failed validation pass, trailing data, or
anything else — the target it was given is completely unchanged from its
pre-call value.  The validation pass uses the no-op setter (so it writes
nothing), and the commit pass, which does write, can only run after the
validation pass succeeded — and then takes exactly the same branches, so
it cannot fail. -/
theorem claim_C2_atomicity (data : Bytes) (arg : GoArg) (e : DErr)
    (h : (Unmarshal data arg).1 = .error e) :
    (Unmarshal data arg).2 = arg := by
  cases arg with
  | nilPtr => rfl
  | nonPtr => rfl
  | ptr t =>
    simp only [Unmarshal] at h ⊢
    cases hr1 : unmarshalNext noOpValueSetter (topFuel data) data (some t) 0 with
    | mk t1 r1 =>
      have ht1 : t1 = some t := by
        have h2 := unmarshalNext_noOp_fst (topFuel data) data (some t) 0
        rw [hr1] at h2
        exact h2
      subst ht1
      rw [hr1] at h
      cases r1 with
      | error e1 => simp
      | ok o =>
        simp only [Option.getD_some] at h ⊢
        by_cases ho : o < data.length
        · simp [ho]
        · simp only [ho, if_false] at h ⊢
          cases hr2 : unmarshalNext valueSetter (topFuel data) data (some t) 0 with
          | mk t2 r2 =>
            rw [hr2] at h
            have hS := decodeStep_shape data (topFuel data) .next
              noOpValueSetter valueSetter (some t) (some t) 0
              (Or.inr rfl) (Or.inl rfl)
              (by simp [sameShapeOpt, sameShape_refl])
            have he2 : r2 = .ok o := by
              have h3 := hS.1
              rw [show decodeStep noOpValueSetter data (topFuel data) .next (some t) 0
                  = unmarshalNext noOpValueSetter (topFuel data) data (some t) 0 from rfl,
                show decodeStep valueSetter data (topFuel data) .next (some t) 0
                  = unmarshalNext valueSetter (topFuel data) data (some t) 0 from rfl,
                hr1, hr2] at h3
              exact h3.symm
            subst he2
            simp at h

/-- Witness for C2: decoding `"0:abc"` (trailing data) into a string
target pre-populated with the canary `"d"` errors and leaves the canary
intact. -/
theorem claim_C2_atomicity_witness :
    (Unmarshal [48, 58, 97, 98, 99] (.ptr (.vstr [100]))).1
      = .error (.trailing 2) ∧
    (Unmarshal [48, 58, 97, 98, 99] (.ptr (.vstr [100]))).2
      = .ptr (.vstr [100]) :=
  ⟨rfl, claim_C2_atomicity [48, 58, 97, 98, 99] (.ptr (.vstr [100]))
    (.trailing 2) rfl⟩

/-! ## Encoder structure lemmas (builder threading, key sorting) -/

/-- The bytes `marshal` appends for a value (its encoding, possibly
truncated at the first error). -/
def encBytes (v : HVal) : Bytes := (marshal v []).1

/-- The error of encoding a value on a fresh builder. -/
def encErr (v : HVal) : Option EErr := (marshal v []).2

/-- The string node for `s`: decimal length, `:`, raw bytes. -/
def strEnc (s : Bytes) : Bytes := natToDigits s.length ++ 58 :: s

/-- The member value `marshalStruct` emits for tag `k`. -/
def valueOfTag (fs : List (Bytes × Option Bytes × HVal)) (k : Bytes) : HVal :=
  fieldValAt fs (keyToIdx (fs.map (·.1)) k)

mutual

/-- `marshal` only appends: its output on builder `w` is `w` followed by
its output on an empty builder, with the same error. -/
theorem marshal_append (v : HVal) (w : Bytes) :
    marshal v w = (w ++ (marshal v []).1, (marshal v []).2) := by
  cases v with
  | viface x =>
    rw [show marshal (.viface x) w = marshal x w from by simp [marshal],
      show marshal (.viface x) [] = marshal x [] from by simp [marshal]]
    exact marshal_append x w
  | vint iw i => simp [marshal, marshalInt]
  | vuint uw u => simp [marshal, marshalInt]
  | vstr s =>
    simp only [marshal, marshalString]
    split <;> simp
  | vslice z es =>
    rw [show marshal (.vslice z es) w = marshalListA es (w ++ [108]) from by
        simp [marshal],
      show marshal (.vslice z es) [] = marshalListA es [108] from by simp [marshal],
      marshalListA_append es (w ++ [108]), marshalListA_append es [108]]
    simp
  | vrecord fs =>
    rw [show marshal (.vrecord fs) w = marshalStruct fs w from by simp [marshal],
      show marshal (.vrecord fs) [] = marshalStruct fs [] from by simp [marshal]]
    exact marshalStruct_append fs w
  | vunsup => simp [marshal]
  termination_by (sizeOf v, 1, 0)
  decreasing_by
  all_goals simp_wf
  all_goals simp only [Prod.lex_def]
  all_goals (first | omega | (simp; omega) | simp)

theorem marshalListA_append (es : List HVal) (w : Bytes) :
    marshalListA es w = (w ++ (marshalListA es []).1, (marshalListA es []).2) := by
  cases es with
  | nil => simp [marshalListA]
  | cons e rest =>
    rw [show marshalListA (e :: rest) w
        = (match marshal e w with
           | (w2, none) => marshalListA rest w2
           | (w2, some err) => (w2, some err)) from by
      rw [marshalListA]]
    rw [show marshalListA (e :: rest) []
        = (match marshal e [] with
           | (w2, none) => marshalListA rest w2
           | (w2, some err) => (w2, some err)) from by
      rw [marshalListA]]
    rw [marshal_append e w]
    cases he : (marshal e []).2 with
    | some err =>
      rw [show marshal e [] = ((marshal e []).1, (marshal e []).2) from rfl, he]
    | none =>
      rw [show marshal e [] = ((marshal e []).1, (marshal e []).2) from rfl, he]
      simp only []
      rw [marshalListA_append rest (w ++ (marshal e []).1),
        marshalListA_append rest (marshal e []).1]
      simp
  termination_by (sizeOf es, 1, 0)
  decreasing_by
  all_goals simp_wf
  all_goals simp only [Prod.lex_def]
  all_goals (first | omega | (simp; omega) | simp)

theorem marshalStruct_append (fs : List (Bytes × Option Bytes × HVal)) (w : Bytes) :
    marshalStruct fs w = (w ++ (marshalStruct fs []).1, (marshalStruct fs []).2) := by
  rw [marshalStruct, marshalStruct]
  simp only [List.nil_append]
  split
  · simp
  · rw [marshalKeysA_append fs _ (w ++ [100]), marshalKeysA_append fs _ [100]]
    simp
  termination_by (sizeOf fs, 3, 0)
  decreasing_by
  all_goals simp_wf
  all_goals simp only [Prod.lex_def]
  all_goals (first | omega | (simp; omega) | simp)

theorem marshalKeysA_append (fs : List (Bytes × Option Bytes × HVal))
    (keys : List Bytes) (w : Bytes) :
    marshalKeysA fs keys w
      = (w ++ (marshalKeysA fs keys []).1, (marshalKeysA fs keys []).2) := by
  cases keys with
  | nil => simp [marshalKeysA]
  | cons k rest =>
    rw [marshalKeysA, marshalKeysA]
    by_cases ha : isASCII k = true
    · simp only [marshalString, ha, if_pos, List.nil_append, List.append_assoc]
      rw [marshal_append (fieldValAt fs (keyToIdx (fs.map (·.1)) k))
          (w ++ (natToDigits k.length ++ 58 :: k)),
        marshal_append (fieldValAt fs (keyToIdx (fs.map (·.1)) k))
          (natToDigits k.length ++ 58 :: k)]
      rw [marshalKeysA_append fs rest, marshalKeysA_append fs rest
        ((natToDigits k.length ++ 58 :: k)
          ++ (marshal (fieldValAt fs (keyToIdx (fs.map (·.1)) k)) []).1)]
      simp
    · simp [marshalString, ha]
  termination_by (sizeOf fs, 2, keys.length + 1)
  decreasing_by
  all_goals simp_wf
  all_goals simp only [Prod.lex_def]
  all_goals try (have hfv := sizeOf_fieldValAt_le fs (keyToIdx (List.map (fun x => x.1) fs) k))
  all_goals try (have hfv2 := sizeOf_fieldValAt_le fs (keyToIdx (List.map (fun x => x.1) fs) head))
  all_goals (first | omega | (simp; omega) | simp)

end

/-- `lexLe` is total. -/
theorem lexLe_total (a b : Bytes) : (lexLe a b || lexLe b a) = true := by
  induction a generalizing b with
  | nil => simp [lexLe]
  | cons x xs ih =>
    cases b with
    | nil => simp [lexLe]
    | cons y ys =>
      simp only [lexLe]
      rcases Nat.lt_trichotomy x y with h | h | h
      · simp [h]
      · subst h
        simpa [Nat.lt_irrefl] using ih ys
      · simp [h, Nat.lt_asymm h]

/-- `lexLe` is transitive. -/
theorem lexLe_trans (a b c : Bytes) (h1 : lexLe a b = true)
    (h2 : lexLe b c = true) : lexLe a c = true := by
  induction a generalizing b c with
  | nil => simp [lexLe]
  | cons x xs ih =>
    cases b with
    | nil => simp [lexLe] at h1
    | cons y ys =>
      cases c with
      | nil => simp [lexLe] at h2
      | cons z zs =>
        simp only [lexLe] at h1 h2 ⊢
        rcases Nat.lt_trichotomy x y with hxy | hxy | hxy
        · rcases Nat.lt_trichotomy y z with hyz | hyz | hyz
          · simp [Nat.lt_trans hxy hyz]
          · subst hyz; simp [hxy]
          · simp [hyz, Nat.lt_asymm hyz] at h2
        · subst hxy
          rcases Nat.lt_trichotomy x z with hyz | hyz | hyz
          · simp [hyz]
          · subst hyz
            simp only [Nat.lt_irrefl, if_false] at h1 h2 ⊢
            exact ih ys zs h1 h2
          · simp [hyz, Nat.lt_asymm hyz] at h2
        · simp [hxy, Nat.lt_asymm hxy] at h1

/-- `lexLe` is antisymmetric. -/
theorem lexLe_antisymm (a b : Bytes) (h1 : lexLe a b = true)
    (h2 : lexLe b a = true) : a = b := by
  induction a generalizing b with
  | nil =>
    cases b with
    | nil => rfl
    | cons y ys => simp [lexLe] at h2
  | cons x xs ih =>
    cases b with
    | nil => simp [lexLe] at h1
    | cons y ys =>
      simp only [lexLe] at h1 h2
      rcases Nat.lt_trichotomy x y with hxy | hxy | hxy
      · simp [hxy, Nat.lt_asymm hxy] at h2
      · subst hxy
        simp only [Nat.lt_irrefl, if_false] at h1 h2
        rw [ih ys h1 h2]
      · simp [hxy, Nat.lt_asymm hxy] at h1

instance lexLe_isAntisymm : IsAntisymm Bytes (fun a b => lexLe a b = true) :=
  ⟨lexLe_antisymm⟩

/-- Two key multisets sort to the same list. -/
theorem mergeSort_perm_eq (l1 l2 : List Bytes) (h : l1.Perm l2) :
    l1.mergeSort lexLe = l2.mergeSort lexLe := by
  refine @List.eq_of_perm_of_sorted Bytes (fun a b => lexLe a b = true)
    lexLe_isAntisymm _ _
    (((l1.mergeSort_perm lexLe).trans h).trans (l2.mergeSort_perm lexLe).symm) ?_ ?_ <;>
    exact List.sorted_mergeSort lexLe_trans lexLe_total _

/-- `kiAux` with a shifted base index. -/
theorem kiAux_shift (tags : List Bytes) (k : Bytes) (i : Nat) :
    kiAux tags k (i + 1) = (kiAux tags k i).map (· + 1) := by
  induction tags generalizing i with
  | nil => simp [kiAux]
  | cons t rest ih =>
    simp only [kiAux]
    rw [ih (i + 1)]
    cases h : kiAux rest k (i + 1) with
    | some j => simp [h]
    | none =>
      simp only [Option.map]
      split <;> simp

/-- A key that occurs in no tag is not found. -/
theorem kiAux_not_mem (tags : List Bytes) (k : Bytes) (i : Nat)
    (h : k ∉ tags) : kiAux tags k i = none := by
  induction tags generalizing i with
  | nil => rfl
  | cons t rest ih =>
    simp only [List.mem_cons, not_or] at h
    simp [kiAux, ih (i + 1) h.2, Ne.symm h.1]

/-- A key that occurs in some tag is found. -/
theorem kiAux_mem_isSome (tags : List Bytes) (k : Bytes) (i : Nat)
    (h : k ∈ tags) : (kiAux tags k i).isSome = true := by
  induction tags generalizing i with
  | nil => simp at h
  | cons t rest ih =>
    simp only [kiAux]
    by_cases hr : k ∈ rest
    · have hs := ih (i + 1) hr
      cases hk : kiAux rest k (i + 1) with
      | some j => simp
      | none => rw [hk] at hs; simp at hs
    · have ht : t = k := by
        rcases List.mem_cons.mp h with h2 | h2
        · exact h2.symm
        · exact absurd h2 hr
      rw [kiAux_not_mem rest k (i + 1) hr]
      simp [ht]

/-- The value an association-style first-match lookup finds (used as the
specification of `keyToIdx` under distinct tags). -/
def assocVal : List (Bytes × Option Bytes × HVal) → Bytes → HVal
  | [], _ => .vunsup
  | f :: rest, k => if f.1 = k then f.2.2 else assocVal rest k

/-- With distinct tags, the map lookup of `marshalStruct` agrees with
first-match association lookup. -/
theorem valueOfTag_eq_assoc (fs : List (Bytes × Option Bytes × HVal)) (k : Bytes)
    (hnd : (fs.map (·.1)).Nodup) (hk : k ∈ fs.map (·.1)) :
    valueOfTag fs k = assocVal fs k := by
  induction fs with
  | nil => simp at hk
  | cons f rest ih =>
    obtain ⟨t, b, v⟩ := f
    simp only [List.map_cons, List.nodup_cons] at hnd
    by_cases hek : t = k
    · subst hek
      have hnr : t ∉ rest.map (·.1) := hnd.1
      simp only [valueOfTag, keyToIdx, List.map_cons, kiAux,
        kiAux_not_mem (rest.map (·.1)) t 1 hnr, if_pos rfl, Option.getD_some,
        fieldValAt, List.getD_cons_zero, assocVal]
      simp
    · have hkr : k ∈ rest.map (·.1) := by
        rcases List.mem_cons.mp hk with h | h
        · exact absurd h.symm hek
        · exact h
      have hsome := kiAux_mem_isSome (rest.map (·.1)) k 0 hkr
      simp only [valueOfTag, keyToIdx, List.map_cons, kiAux, kiAux_shift]
      cases hj : kiAux (rest.map (·.1)) k 0 with
      | none => rw [hj] at hsome; simp at hsome
      | some j =>
        simp only [Option.map_some, Option.getD_some, fieldValAt,
          List.getD_cons_succ, assocVal, if_neg hek]
        have ih2 := ih hnd.2 hkr
        simp only [valueOfTag, keyToIdx, hj, Option.getD_some, fieldValAt] at ih2
        exact ih2

/-- Association lookup is permutation-invariant when tags are distinct. -/
theorem assocVal_perm (fs1 fs2 : List (Bytes × Option Bytes × HVal)) (k : Bytes)
    (hperm : fs1.Perm fs2) (hnd : (fs1.map (·.1)).Nodup) :
    assocVal fs1 k = assocVal fs2 k := by
  induction hperm with
  | nil => rfl
  | cons f rest ih =>
    simp only [List.map_cons, List.nodup_cons] at hnd
    simp only [assocVal]
    split
    · rfl
    · exact ih hnd.2
  | swap f g rest =>
    simp only [List.map_cons, List.nodup_cons, List.mem_cons] at hnd
    simp only [assocVal]
    by_cases hg : g.1 = k <;> by_cases hf : f.1 = k <;> simp [hg, hf]
    exact absurd (Or.inl (hg.trans hf.symm)) hnd.1
  | trans h12 h23 ih12 ih23 =>
    rw [ih12 hnd, ih23 ((h12.map (·.1)).nodup_iff.mp hnd)]

/-- The emission loop writes, for each key in order, the key's string
node followed by the mapped member's encoding, then closes with `e`
(ASCII keys assumed so that `marshalString` succeeds; errors of member
encodings are dropped by the source and do not stop emission). -/
theorem marshalKeysA_format (fs : List (Bytes × Option Bytes × HVal))
    (keys : List Bytes) (w : Bytes) (h : ∀ k ∈ keys, isASCII k = true) :
    marshalKeysA fs keys w
      = (w ++ (keys.map (fun k => strEnc k ++ encBytes (valueOfTag fs k))).join
          ++ [101], none) := by
  induction keys generalizing w with
  | nil => simp [marshalKeysA]
  | cons k rest ih =>
    rw [marshalKeysA]
    have ha := h k (by simp)
    simp only [marshalString, ha, if_pos]
    rw [marshal_append]
    rw [ih _ (fun k2 hk2 => h k2 (by simp [hk2]))]
    simp [strEnc, encBytes, valueOfTag, List.append_assoc]

/-- Two field lists that agree on every emitted member value emit
identically. -/
theorem marshalKeysA_congr (fs1 fs2 : List (Bytes × Option Bytes × HVal))
    (keys : List Bytes) (w : Bytes)
    (h : ∀ k ∈ keys, valueOfTag fs1 k = valueOfTag fs2 k) :
    marshalKeysA fs1 keys w = marshalKeysA fs2 keys w := by
  induction keys generalizing w with
  | nil => simp [marshalKeysA]
  | cons k rest ih =>
    rw [marshalKeysA, marshalKeysA]
    have hk := h k (by simp)
    simp only [valueOfTag] at hk
    by_cases ha : isASCII k = true
    · simp only [marshalString, ha, if_pos]
      rw [hk]
      exact ih _ (fun k2 hk2 => h k2 (by simp [hk2]))
    · simp [marshalString, ha]

/-- C4.  Canonical dictionary ordering.  First part: for a record whose
members all carry (ASCII) tags, `Marshal` emits `d`, then for each tag
in the byte-lexicographically sorted order the tag's string node
followed by that member's encoding, then `e`; the emitted key sequence
is sorted.  Second part: two records holding the same tag-to-value
mapping (one a permutation of the other, tags distinct) produce
identical bytes regardless of member declaration order. -/
theorem claim_C4_canonical :
    (∀ fs : List (Bytes × Option Bytes × HVal),
      (fs.map (·.1)).contains [] = false →
      (∀ k ∈ fs.map (·.1), isASCII k = true) →
      Marshal (.vrecord fs)
        = .ok (100 :: ((((fs.map (·.1)).mergeSort lexLe).map
            (fun k => strEnc k ++ encBytes (valueOfTag fs k))).join ++ [101])) ∧
      List.Sorted (fun a b => lexLe a b = true) ((fs.map (·.1)).mergeSort lexLe))
    ∧ (∀ fs1 fs2 : List (Bytes × Option Bytes × HVal), fs1.Perm fs2 →
        (fs1.map (·.1)).Nodup →
        Marshal (.vrecord fs1) = Marshal (.vrecord fs2)) := by
  constructor
  · intro fs hc hascii
    constructor
    · rw [show Marshal (.vrecord fs)
          = (match marshalStruct fs [] with
             | (_, some err) => .error err
             | (w2, none) => .ok w2) from by
        simp only [Marshal]
        rw [show marshal (.vrecord fs) [] = marshalStruct fs [] from by simp [marshal]]]
      rw [marshalStruct]
      simp only [hc, Bool.false_eq_true, if_false, List.nil_append]
      rw [marshalKeysA_format fs _ [100] (fun k hk => hascii k
        (((fs.map (·.1)).mergeSort_perm lexLe).mem_iff.mp hk))]
      simp
    · exact List.sorted_mergeSort lexLe_trans lexLe_total _
  · intro fs1 fs2 hperm hnd
    have hpt : (fs1.map (·.1)).Perm (fs2.map (·.1)) := hperm.map (·.1)
    have hnd2 : (fs2.map (·.1)).Nodup := hpt.nodup_iff.mp hnd
    have hmem : ∀ k : Bytes, k ∈ fs1.map (·.1) ↔ k ∈ fs2.map (·.1) :=
      fun _ => hpt.mem_iff
    rw [show Marshal (.vrecord fs1)
        = (match marshalStruct fs1 [] with
           | (_, some err) => .error err
           | (w2, none) => .ok w2) from by
      simp only [Marshal]
      rw [show marshal (.vrecord fs1) [] = marshalStruct fs1 [] from by simp [marshal]]]
    rw [show Marshal (.vrecord fs2)
        = (match marshalStruct fs2 [] with
           | (_, some err) => .error err
           | (w2, none) => .ok w2) from by
      simp only [Marshal]
      rw [show marshal (.vrecord fs2) [] = marshalStruct fs2 [] from by simp [marshal]]]
    rw [marshalStruct, marshalStruct]
    have hceq : ((fs1.map (·.1)).contains ([] : Bytes))
        = ((fs2.map (·.1)).contains ([] : Bytes)) := by
      by_cases hs : ([] : Bytes) ∈ fs1.map (·.1)
      · have hs2 := (hmem []).mp hs
        simp [hs, hs2]
      · have hs2 : ([] : Bytes) ∉ fs2.map (·.1) := fun hh => hs ((hmem []).mpr hh)
        simp [hs, hs2]
    rw [hceq, mergeSort_perm_eq _ _ hpt]
    have hvals : ∀ k ∈ (fs2.map (·.1)).mergeSort lexLe,
        valueOfTag fs1 k = valueOfTag fs2 k := by
      intro k hk
      have hk2 : k ∈ fs2.map (·.1) :=
        ((fs2.map (·.1)).mergeSort_perm lexLe).mem_iff.mp hk
      have hk1 : k ∈ fs1.map (·.1) := (hmem k).mpr hk2
      rw [valueOfTag_eq_assoc fs1 k hnd hk1, valueOfTag_eq_assoc fs2 k hnd2 hk2]
      exact assocVal_perm fs1 fs2 k hperm hnd
    rw [marshalKeysA_congr fs1 fs2 _ _ hvals]

/-- Witness for C4: the swapped two-field record `{b: i1e, a: i2e}`
encodes identically to `{a: i2e, b: i1e}`, and the one-field record
`{a: "A"}` emits the sorted canonical form. -/
theorem claim_C4_canonical_witness :
    Marshal (.vrecord [([98], none, .vint .w64 1), ([97], none, .vint .w64 2)])
      = Marshal (.vrecord [([97], none, .vint .w64 2), ([98], none, .vint .w64 1)]) ∧
    Marshal (.vrecord [([97], none, .vstr [65])])
      = .ok (100 :: ((((([([97], (none : Option Bytes), HVal.vstr [65])].map (·.1)).mergeSort lexLe).map (fun k => strEnc k ++ encBytes (valueOfTag [([97], (none : Option Bytes), HVal.vstr [65])] k))).join) ++ [101])) :=
  ⟨claim_C4_canonical.2
      [([98], none, .vint .w64 1), ([97], none, .vint .w64 2)]
      [([97], none, .vint .w64 2), ([98], none, .vint .w64 1)]
      (List.Perm.swap ([97], (none : Option Bytes), HVal.vint IW.w64 2)
        ([98], (none : Option Bytes), HVal.vint IW.w64 1) [])
      (by simp),
   (claim_C4_canonical.1 [([97], none, .vstr [65])] (by simp) (by simp [isASCII])).1⟩

/-! ## Digit-run and number-rendering lemmas -/

theorem getD_append_right (l1 l2 : Bytes) (i d : Nat) :
    (l1 ++ l2).getD (l1.length + i) d = l2.getD i d := by
  induction l1 with
  | nil => simp
  | cons x xs ih => simpa [Nat.succ_add] using ih

theorem natToDigits_all_digits (n : Nat) :
    ∀ d ∈ natToDigits n, isDigit d = true := by
  induction n using Nat.strong_induction_on with
  | _ n ih =>
    rw [natToDigits]
    split
    · intro d hd
      simp only [List.mem_singleton] at hd
      subst hd
      simp only [isDigit, Bool.and_eq_true, decide_eq_true_eq]
      omega
    · intro d hd
      rcases List.mem_append.mp hd with hd | hd
      · exact ih (n / 10) (Nat.div_lt_self (by omega) (by omega)) d hd
      · simp only [List.mem_singleton] at hd
        subst hd
        simp only [isDigit, Bool.and_eq_true, decide_eq_true_eq]
        omega

theorem natToDigits_ne_nil (n : Nat) : natToDigits n ≠ [] := by
  rw [natToDigits]
  split
  · simp
  · simp

theorem digitsToNat_append_singleton (xs : Bytes) (d : Nat) :
    digitsToNat (xs ++ [d]) = digitsToNat xs * 10 + (d - 48) := by
  simp only [digitsToNat, List.foldl_append, List.foldl_cons, List.foldl_nil]

theorem digitsToNat_natToDigits (n : Nat) :
    digitsToNat (natToDigits n) = n := by
  induction n using Nat.strong_induction_on with
  | _ n ih =>
    rw [natToDigits]
    split
    · simp only [digitsToNat, List.foldl_cons, List.foldl_nil]
      omega
    · rw [digitsToNat_append_singleton,
        ih (n / 10) (Nat.div_lt_self (by omega) (by omega))]
      omega

theorem digitRun_append_digits (ds rest : Bytes)
    (h : ∀ d ∈ ds, isDigit d = true) :
    digitRun (ds ++ rest) = ds.length + digitRun rest := by
  induction ds with
  | nil => simp
  | cons x xs ih =>
    have hx := h x (by simp)
    rw [List.cons_append,
      show digitRun (x :: (xs ++ rest)) = digitRun (xs ++ rest) + 1 from by
        simp [digitRun, hx],
      ih (fun d hd => h d (by simp [hd]))]
    simp only [List.length_cons]
    omega

theorem digitRun_not_digit (b : Nat) (rest : Bytes) (h : isDigit b = false) :
    digitRun (b :: rest) = 0 := by
  simp [digitRun, h]

/-- `intLimit` on data whose digit run starting at `pre.length` is
exactly `ds`. -/
theorem intLimit_at (pre ds rest : Bytes) (hds : ∀ d ∈ ds, isDigit d = true)
    (hrest : rest = [] ∨ isDigit (rest.getD 0 0) = false) :
    intLimit pre.length (pre ++ ds ++ rest) = pre.length + ds.length := by
  have hdrop : (pre ++ ds ++ rest).drop pre.length = ds ++ rest := by
    rw [show pre ++ ds ++ rest = pre ++ (ds ++ rest) from by simp, List.drop_left]
  rw [intLimit, hdrop, digitRun_append_digits ds rest hds]
  rcases hrest with h | h
  · simp [h, digitRun]
  · cases rest with
    | nil => simp [digitRun]
    | cons r rs =>
      simp only [List.getD_cons_zero] at h
      simp [digitRun_not_digit r rs h]

theorem extract_at (pre xs rest : Bytes) :
    extract (pre ++ xs ++ rest) pre.length (pre.length + xs.length) = xs := by
  simp only [extract]
  rw [show pre ++ xs ++ rest = pre ++ (xs ++ rest) from by simp, List.drop_left]
  simp [List.take_left]

theorem goSlice_at (pre xs rest : Bytes) :
    goSlice (pre ++ xs ++ rest) pre.length (pre.length + xs.length) = some xs := by
  have hb : pre.length + xs.length ≤ (pre ++ xs ++ rest).length := by
    simp [List.length_append]
    try omega
  simp only [goSlice, if_pos (And.intro (Nat.le_add_right _ _) hb)]
  have := extract_at pre xs rest
  simpa [extract] using this

theorem isDigit_not_sign (c : Nat) (h : isDigit c = true) : c ≠ 45 ∧ c ≠ 43 := by
  simp [isDigit] at h
  omega

/-- `Atoi` on a non-empty pure digit run within range. -/
theorem goAtoi_digits (ds : Bytes) (hne : ds ≠ [])
    (hd : ∀ d ∈ ds, isDigit d = true)
    (hr : (digitsToNat ds : Int) ≤ 2 ^ 63 - 1) :
    goAtoi ds = some (digitsToNat ds) := by
  cases ds with
  | nil => exact absurd rfl hne
  | cons c rest =>
    have hc := isDigit_not_sign c (hd c (by simp))
    simp only [goAtoi]
    rw [if_neg (by simp [hc.1, hc.2]),
      if_pos (by simpa [List.all_eq_true] using hd)]
    have h1 : ¬((digitsToNat (c :: rest) : Int) < -2 ^ 63) := by omega
    have h2 : ¬((digitsToNat (c :: rest) : Int) > 2 ^ 63 - 1) := by omega
    simp [h1, h2]
    omega

/-- `Atoi` on a `-`-signed digit run within range. -/
theorem goAtoi_neg (ds : Bytes) (hne : ds ≠ [])
    (hd : ∀ d ∈ ds, isDigit d = true)
    (hr : (digitsToNat ds : Int) ≤ 2 ^ 63) :
    goAtoi (45 :: ds) = some (-(digitsToNat ds : Int)) := by
  simp only [goAtoi]
  rw [if_pos (by simp), if_neg hne,
    if_pos (by simpa [List.all_eq_true] using hd)]
  have h1 : ¬(-(digitsToNat ds : Int) < -2 ^ 63) := by omega
  have h2 : ¬(-(digitsToNat ds : Int) > 2 ^ 63 - 1) := by omega
  simp [h1, h2]
  omega

/-- `Atoi` on a `+`-signed digit run within range. -/
theorem goAtoi_plus (ds : Bytes) (hne : ds ≠ [])
    (hd : ∀ d ∈ ds, isDigit d = true)
    (hr : (digitsToNat ds : Int) ≤ 2 ^ 63 - 1) :
    goAtoi (43 :: ds) = some (digitsToNat ds) := by
  simp only [goAtoi]
  rw [if_pos (by simp), if_neg hne,
    if_pos (by simpa [List.all_eq_true] using hd)]
  have h1 : ¬((digitsToNat ds : Int) < -2 ^ 63) := by omega
  have h2 : ¬((digitsToNat ds : Int) > 2 ^ 63 - 1) := by omega
  simp [h1, h2]
  omega


/-! ## Parsing the encoder's output, node by node -/

theorem intToDigits_nonneg (i : Int) (h : 0 ≤ i) :
    intToDigits i = natToDigits i.toNat := by
  simp [intToDigits, not_lt.mpr h]

theorem intToDigits_neg (i : Int) (h : i < 0) :
    intToDigits i = 45 :: natToDigits (-i).toNat := by
  simp [intToDigits, h]

/-- `stringIndices` at the start of an encoded string node. -/
theorem stringIndices_at (pre k rest : Bytes)
    (hk : (k.length : Int) ≤ 2 ^ 63 - 1) :
    stringIndices pre.length (pre ++ strEnc k ++ rest)
      = .ok (pre.length + (natToDigits k.length).length + 1,
          pre.length + (natToDigits k.length).length + 1 + k.length) := by
  have hdata : pre ++ strEnc k ++ rest
      = pre ++ natToDigits k.length ++ (58 :: (k ++ rest)) := by
    simp [strEnc]
  have hlim : intLimit pre.length (pre ++ strEnc k ++ rest)
      = pre.length + (natToDigits k.length).length := by
    rw [hdata]
    exact intLimit_at pre (natToDigits k.length) (58 :: (k ++ rest))
      (natToDigits_all_digits k.length) (Or.inr (by simp [isDigit]))
  have hslice : goSlice (pre ++ strEnc k ++ rest) pre.length
      (pre.length + (natToDigits k.length).length) = some (natToDigits k.length) := by
    rw [hdata]
    exact goSlice_at pre (natToDigits k.length) (58 :: (k ++ rest))
  have hatoi : goAtoi (natToDigits k.length) = some (k.length : Int) := by
    rw [goAtoi_digits (natToDigits k.length) (natToDigits_ne_nil _)
      (natToDigits_all_digits _) (by rw [digitsToNat_natToDigits]; exact hk),
      digitsToNat_natToDigits]
    rfl
  have hcolon : (pre ++ strEnc k ++ rest).getD
      (pre.length + (natToDigits k.length).length) 0 = 58 := by
    rw [hdata, show pre ++ natToDigits k.length ++ (58 :: (k ++ rest))
        = (pre ++ natToDigits k.length) ++ (58 :: (k ++ rest)) from by simp,
      show pre.length + (natToDigits k.length).length
        = (pre ++ natToDigits k.length).length + 0 from by simp,
      getD_append_right]
    rfl
  have hlen : (pre ++ strEnc k ++ rest).length
      = pre.length + (natToDigits k.length).length + 1 + k.length + rest.length := by
    simp [strEnc]
    omega
  rw [stringIndices, hlim, hslice]
  simp only [hatoi]
  rw [if_neg (by
    simp only [hcolon, ge_iff_le, hlen]
    simp
    omega)]
  rw [if_neg (by
    rw [hlen]
    push_neg
    push_cast
    omega)]
  simp

/-- The key bytes a parsed string node extracts. -/
theorem extract_strEnc (pre k rest : Bytes) :
    extract (pre ++ strEnc k ++ rest)
      (pre.length + (natToDigits k.length).length + 1)
      (pre.length + (natToDigits k.length).length + 1 + k.length) = k := by
  have hdata : pre ++ strEnc k ++ rest
      = (pre ++ natToDigits k.length ++ [58]) ++ k ++ rest := by
    simp [strEnc]
  have hl : pre.length + (natToDigits k.length).length + 1
      = (pre ++ natToDigits k.length ++ [58]).length := by
    simp
    omega
  rw [hdata, hl]
  exact extract_at (pre ++ natToDigits k.length ++ [58]) k rest

/-- `unmarshalString` at the start of an encoded string node. -/
theorem unmarshalString_at (st : Setter) (pre k rest : Bytes) (t : Option HVal)
    (hk : (k.length : Int) ≤ 2 ^ 63 - 1) :
    unmarshalString st (pre ++ strEnc k ++ rest) t pre.length
      = (match t with
         | some (.vstr s0) => (some (st.setString (.vstr s0) k),
             .ok (pre.length + (strEnc k).length))
         | none => (none, .ok (pre.length + (strEnc k).length))
         | some tv => (some tv, .error (.mismatch pre.length))) := by
  have hse : pre.length + (strEnc k).length
      = pre.length + (natToDigits k.length).length + 1 + k.length := by
    simp [strEnc]
    omega
  simp only [unmarshalString, stringIndices_at pre k rest hk, extract_strEnc, hse]
  cases t with
  | none => rfl
  | some tv => cases tv <;> rfl

/-- `unmarshalInt` at the start of an encoded integer node. -/
theorem unmarshalInt_at (st : Setter) (pre rest : Bytes) (i : Int)
    (t : Option HVal) (hi1 : -(2 ^ 63) ≤ i) (hi2 : i < 2 ^ 63) :
    unmarshalInt st (pre ++ (105 :: intToDigits i ++ [101]) ++ rest) t pre.length
      = (match t with
         | some (.vint .w64 j) => (some (st.setInt (.vint .w64 j) i),
             .ok (pre.length + (105 :: intToDigits i ++ [101]).length))
         | none => (none, .ok (pre.length + (105 :: intToDigits i ++ [101]).length))
         | some tv => (some tv, .error (.mismatch pre.length))) := by
  have hend : pre.length + (105 :: intToDigits i ++ [101]).length
      = pre.length + 1 + (intToDigits i).length + 1 := by
    simp
    omega
  have hcore : intLimit (pre.length + 1 + 1) (pre ++ (105 :: intToDigits i ++ [101]) ++ rest)
        = pre.length + 1 + (intToDigits i).length ∧
      goSlice (pre ++ (105 :: intToDigits i ++ [101]) ++ rest) (pre.length + 1)
        (pre.length + 1 + (intToDigits i).length) = some (intToDigits i) ∧
      goAtoi (intToDigits i) = some i := by
    rcases le_or_lt 0 i with hpos | hneg
    · rw [intToDigits_nonneg i hpos]
      cases hL : natToDigits i.toNat with
      | nil => exact absurd hL (natToDigits_ne_nil _)
      | cons L0 Lt =>
        have hLd := natToDigits_all_digits i.toNat
        rw [hL] at hLd
        have hdata : pre ++ (105 :: (L0 :: Lt) ++ [101]) ++ rest
            = (pre ++ [105, L0]) ++ Lt ++ (101 :: rest) := by
          simp
        refine ⟨?_, ?_, ?_⟩
        · rw [hdata, show pre.length + 1 + 1 = (pre ++ [105, L0]).length from by simp,
            intLimit_at (pre ++ [105, L0]) Lt (101 :: rest)
              (fun d hd => hLd d (by simp [hd])) (Or.inr (by simp [isDigit]))]
          simp
          omega
        · rw [show pre ++ (105 :: (L0 :: Lt) ++ [101]) ++ rest
              = (pre ++ [105]) ++ (L0 :: Lt) ++ (101 :: rest) from by simp,
            show pre.length + 1 = (pre ++ [105]).length from by simp]
          exact goSlice_at (pre ++ [105]) (L0 :: Lt) (101 :: rest)
        · rw [goAtoi_digits (L0 :: Lt) (by simp) hLd
            (by rw [show (L0 :: Lt) = natToDigits i.toNat from hL.symm,
              digitsToNat_natToDigits]; omega)]
          rw [show (L0 :: Lt) = natToDigits i.toNat from hL.symm,
            digitsToNat_natToDigits]
          simp [Int.toNat_of_nonneg hpos]
    · rw [intToDigits_neg i hneg]
      have hMd := natToDigits_all_digits (-i).toNat
      have hdata : pre ++ (105 :: (45 :: natToDigits (-i).toNat) ++ [101]) ++ rest
          = (pre ++ [105, 45]) ++ natToDigits (-i).toNat ++ (101 :: rest) := by
        simp
      refine ⟨?_, ?_, ?_⟩
      · rw [hdata, show pre.length + 1 + 1 = (pre ++ [105, 45]).length from by simp,
          intLimit_at (pre ++ [105, 45]) (natToDigits (-i).toNat) (101 :: rest)
            hMd (Or.inr (by simp [isDigit]))]
        simp
        omega
      · rw [show pre ++ (105 :: (45 :: natToDigits (-i).toNat) ++ [101]) ++ rest
            = (pre ++ [105]) ++ (45 :: natToDigits (-i).toNat) ++ (101 :: rest) from by
          simp,
          show pre.length + 1 = (pre ++ [105]).length from by simp]
        exact goSlice_at (pre ++ [105]) (45 :: natToDigits (-i).toNat) (101 :: rest)
      · rw [goAtoi_neg (natToDigits (-i).toNat) (natToDigits_ne_nil _) hMd
          (by rw [digitsToNat_natToDigits]; omega),
          digitsToNat_natToDigits]
        congr 1
        omega
  have hterm : (pre ++ (105 :: intToDigits i ++ [101]) ++ rest).getD
      (pre.length + 1 + (intToDigits i).length) 0 = 101 := by
    rw [show pre ++ (105 :: intToDigits i ++ [101]) ++ rest
        = ((pre ++ [105]) ++ intToDigits i) ++ (101 :: rest) from by simp,
      show pre.length + 1 + (intToDigits i).length
        = ((pre ++ [105]) ++ intToDigits i).length + 0 from by simp; omega,
      getD_append_right]
    rfl
  have hlt : pre.length + 1 + (intToDigits i).length
      < (pre ++ (105 :: intToDigits i ++ [101]) ++ rest).length := by
    simp
    omega
  simp only [unmarshalInt, hcore.1, hcore.2.1, hcore.2.2]
  rw [if_neg (by
    simp only [hterm, ge_iff_le]
    simp
    omega)]
  cases t with
  | none => simp [hend]; omega
  | some tv =>
    cases tv with
    | vint w j =>
      cases w <;> simp [hend] <;> omega
    | vuint w u => rfl
    | viface x => rfl
    | vstr s => rfl
    | vslice z es => rfl
    | vrecord fs => rfl
    | vunsup => rfl


/-! ## The integer wire grammar (C6) -/

theorem goSlice_some_le (data : Bytes) (a b : Nat) (sub : Bytes)
    (h : goSlice data a b = some sub) : a ≤ b ∧ b ≤ data.length := by
  simp only [goSlice] at h
  by_cases hc : a ≤ b ∧ b ≤ data.length
  · exact hc
  · rw [if_neg hc] at h
    exact absurd h (by simp)

/-- Inversion of a successful `Atoi`: the input is an optional single
sign followed by a non-empty digit run whose value fits in an `int64`
(leading zeros, `-0` and a `+` sign are all accepted). -/
theorem goAtoi_inv (s : Bytes) (i : Int) (h : goAtoi s = some i) :
    ∃ sgn ds : Bytes, (sgn = [] ∨ sgn = [43] ∨ sgn = [45]) ∧ ds ≠ [] ∧
      (∀ d ∈ ds, isDigit d = true) ∧ s = sgn ++ ds ∧
      (if sgn = [45] then (digitsToNat ds : Int) ≤ 2 ^ 63
       else (digitsToNat ds : Int) ≤ 2 ^ 63 - 1) := by
  cases s with
  | nil => simp [goAtoi] at h
  | cons c rest =>
    simp only [goAtoi] at h
    by_cases hsgn : (c = 45 || c = 43) = true
    · rw [if_pos hsgn] at h
      by_cases hr0 : rest = []
      · rw [if_pos hr0] at h
        exact absurd h (by simp)
      · rw [if_neg hr0] at h
        by_cases hall : rest.all isDigit = true
        · rw [if_pos hall] at h
          have hall2 : ∀ d ∈ rest, isDigit d = true := by
            simpa [List.all_eq_true] using hall
          by_cases hc45 : c = 45
          · rw [if_pos hc45] at h
            cases hB : (decide (-(digitsToNat rest : Int) < -2 ^ 63)
                || decide (-(digitsToNat rest : Int) > 2 ^ 63 - 1)) with
            | true =>
              rw [if_pos hB] at h
              exact absurd h (by simp)
            | false =>
              simp only [Bool.or_eq_false_iff, decide_eq_false_iff_not] at hB
              refine ⟨[45], rest, Or.inr (Or.inr rfl), hr0, hall2,
                by rw [hc45]; rfl, ?_⟩
              rw [if_pos rfl]
              omega
          · rw [if_neg hc45] at h
            have hc43 : c = 43 := by
              simpa [hc45] using hsgn
            cases hB : (decide ((digitsToNat rest : Int) < -2 ^ 63)
                || decide ((digitsToNat rest : Int) > 2 ^ 63 - 1)) with
            | true =>
              rw [if_pos hB] at h
              exact absurd h (by simp)
            | false =>
              simp only [Bool.or_eq_false_iff, decide_eq_false_iff_not] at hB
              refine ⟨[43], rest, Or.inr (Or.inl rfl), hr0, hall2,
                by rw [hc43]; rfl, ?_⟩
              rw [if_neg (by simp)]
              omega
        · rw [if_neg hall] at h
          exact absurd h (by simp)
    · rw [if_neg hsgn] at h
      by_cases hall : (c :: rest).all isDigit = true
      · rw [if_pos hall] at h
        cases hB : (decide ((digitsToNat (c :: rest) : Int) < -2 ^ 63)
            || decide ((digitsToNat (c :: rest) : Int) > 2 ^ 63 - 1)) with
        | true =>
          rw [if_pos hB] at h
          exact absurd h (by simp)
        | false =>
          simp only [Bool.or_eq_false_iff, decide_eq_false_iff_not] at hB
          refine ⟨[], c :: rest, Or.inl rfl, by simp,
            by simpa [List.all_eq_true] using hall, by simp, ?_⟩
          rw [if_neg (by simp)]
          omega
      · rw [if_neg hall] at h
        exact absurd h (by simp)

theorem unmarshalString_vint_snd (st : Setter) (data : Bytes) (w : IW)
    (j : Int) (off o : Nat) :
    (unmarshalString st data (some (.vint w j)) off).2 ≠ .ok o := by
  cases hsi : stringIndices off data with
  | error e => simp [unmarshalString, hsi]
  | ok p =>
    rcases p with ⟨a, b⟩
    simp [unmarshalString, hsi]

theorem decodeStep_list_vint (st : Setter) (data : Bytes) (fuel : Nat)
    (w : IW) (j : Int) (off : Nat) :
    decodeStep st data (fuel + 1) .list (some (.vint w j)) off
      = (some (.vint w j), .error (.mismatch off)) := by
  simp only [decodeStep]

theorem decodeStep_dict_vint (st : Setter) (data : Bytes) (fuel : Nat)
    (w : IW) (j : Int) (off : Nat) :
    decodeStep st data (fuel + 1) .dict (some (.vint w j)) off
      = (some (.vint w j), .error (.mismatch off)) := by
  simp only [decodeStep]

/-- Inversion of a successful `unmarshalInt`: the slice between the `i`
and the first non-digit after the sign position went through `Atoi`, the
terminator is a live `e`, and the offset lands just past it. -/
theorem unmarshalInt_ok_inv (st : Setter) (data : Bytes) (t : Option HVal)
    (off o : Nat) (h : (unmarshalInt st data t off).2 = .ok o) :
    ∃ sub i, goSlice data (off + 1) (intLimit (off + 1 + 1) data) = some sub ∧
      goAtoi sub = some i ∧
      off + 1 ≤ intLimit (off + 1 + 1) data ∧
      intLimit (off + 1 + 1) data < data.length ∧
      data.getD (intLimit (off + 1 + 1) data) 0 = 101 ∧
      o = intLimit (off + 1 + 1) data + 1 := by
  simp only [unmarshalInt] at h
  cases hgs : goSlice data (off + 1) (intLimit (off + 1 + 1) data) with
  | none =>
    simp only [hgs] at h
    simp at h
  | some sub =>
    simp only [hgs] at h
    cases hga : goAtoi sub with
    | none =>
      simp only [hga] at h
      simp at h
    | some i =>
      simp only [hga] at h
      cases hterm : (decide (intLimit (off + 1 + 1) data ≥ data.length)
          || !(data.getD (intLimit (off + 1 + 1) data) 0 == 101)) with
      | true =>
        rw [if_pos hterm] at h
        simp at h
      | false =>
        rw [if_neg (by rw [hterm]; simp)] at h
        simp only [Bool.or_eq_false_iff, decide_eq_false_iff_not, not_le,
          Bool.not_eq_false, beq_iff_eq, ge_iff_le] at hterm
        refine ⟨sub, i, rfl, hga, (goSlice_some_le _ _ _ _ hgs).1,
          hterm.1, by simpa using hterm.2, ?_⟩
        cases t with
        | none => simpa using h.symm
        | some tv =>
          cases tv with
          | vint w jj =>
            cases w with
            | w64 => simpa using h.symm
            | w8 => simp at h
            | w16 => simp at h
            | w32 => simp at h
            | wInt => simp at h
          | vuint w u => simp at h
          | viface x => simp at h
          | vstr s => simp at h
          | vslice z es => simp at h
          | vrecord fs => simp at h
          | vunsup => simp at h

/-- A successfully scanned top-level integer node occupies the whole
input: `i`, the `Atoi` slice, a closing `e`. -/
theorem int_node_shape (data sub : Bytes)
    (hhead : data.getD 0 0 = 105)
    (hone : 1 ≤ data.length - 1)
    (hslice : goSlice data 1 (data.length - 1) = some sub)
    (hterm : data.getD (data.length - 1) 0 = 101) :
    data = 105 :: sub ++ [101] := by
  cases data with
  | nil => simp at hone
  | cons b restd =>
    have hb : b = 105 := by simpa using hhead
    subst hb
    have hm1 : (105 :: restd).length - 1 = restd.length := by simp
    rw [hm1] at hslice hterm
    have h1 : 1 ≤ restd.length := by
      have := hone
      simp at this
      omega
    have hsub : sub = restd.take (restd.length - 1) := by
      simp only [goSlice] at hslice
      rw [if_pos ⟨by omega, by simp⟩] at hslice
      have := Option.some.inj hslice
      simpa using this.symm
    have hlast : restd.getD (restd.length - 1) 0 = 101 := by
      rw [show restd.length = (restd.length - 1) + 1 from by omega] at hterm
      simpa using hterm
    have hmlt : restd.length - 1 < restd.length := by omega
    have hdrop : restd.drop (restd.length - 1) = [101] := by
      rw [List.drop_eq_getElem_cons hmlt,
        show restd.length - 1 + 1 = restd.length from by omega,
        List.drop_length]
      rw [← List.getD_eq_getElem restd 0 hmlt, hlast]
    have : restd = sub ++ [101] := by
      conv_lhs => rw [← List.take_append_drop (restd.length - 1) restd]
      rw [hdrop, ← hsub]
    rw [this]
    rfl

/-- Evaluation of `unmarshalInt` on a full integer node carrying an
arbitrary accepted `Atoi` spelling (sign optional, leading zeros free). -/
theorem unmarshalInt_wire (st : Setter) (j : Int) (sgn ds : Bytes)
    (hsgn : sgn = [] ∨ sgn = [43] ∨ sgn = [45]) (hne : ds ≠ [])
    (hd : ∀ d ∈ ds, isDigit d = true)
    (hr : if sgn = [45] then (digitsToNat ds : Int) ≤ 2 ^ 63
          else (digitsToNat ds : Int) ≤ 2 ^ 63 - 1) :
    unmarshalInt st (105 :: (sgn ++ ds) ++ [101]) (some (.vint .w64 j)) 0
      = (some (st.setInt (.vint .w64 j)
          (if sgn = [45] then -(digitsToNat ds : Int) else (digitsToNat ds : Int))),
        .ok ((sgn ++ ds).length + 2)) := by
  rcases hsgn with h0 | h0 | h0 <;> subst h0
  · cases ds with
    | nil => exact absurd rfl hne
    | cons d0 dt =>
      rw [if_neg (by simp)] at hr
      have hdd := hd
      have hlim : intLimit (0 + 1 + 1) (105 :: (([] : Bytes) ++ (d0 :: dt)) ++ [101])
          = 1 + (([] : Bytes) ++ (d0 :: dt)).length := by
        rw [show (105 : Nat) :: (([] : Bytes) ++ (d0 :: dt)) ++ [101]
            = ([105, d0] : Bytes) ++ dt ++ [101] from by simp,
          show (0 : Nat) + 1 + 1 = ([105, d0] : Bytes).length from rfl,
          intLimit_at [105, d0] dt [101]
            (fun d hdm => hd d (by simp [hdm])) (Or.inr (by simp [isDigit]))]
        simp
        omega
      have hgs : goSlice (105 :: (([] : Bytes) ++ (d0 :: dt)) ++ [101]) (0 + 1)
          (1 + (([] : Bytes) ++ (d0 :: dt)).length) = some (([] : Bytes) ++ (d0 :: dt)) := by
        rw [show (105 : Nat) :: (([] : Bytes) ++ (d0 :: dt)) ++ [101]
            = ([105] : Bytes) ++ (([] : Bytes) ++ (d0 :: dt)) ++ [101] from by simp,
          show (0 : Nat) + 1 = ([105] : Bytes).length from rfl]
        exact goSlice_at [105] (([] : Bytes) ++ (d0 :: dt)) [101]
      have hga : goAtoi (([] : Bytes) ++ (d0 :: dt)) = some (digitsToNat (d0 :: dt) : Int) := by
        rw [List.nil_append]
        exact goAtoi_digits (d0 :: dt) (by simp) hd hr
      have hterm : (105 :: (([] : Bytes) ++ (d0 :: dt)) ++ [101]).getD
          (1 + (([] : Bytes) ++ (d0 :: dt)).length) 0 = 101 := by
        rw [show (105 : Nat) :: (([] : Bytes) ++ (d0 :: dt)) ++ [101]
            = (([105] : Bytes) ++ (([] : Bytes) ++ (d0 :: dt))) ++ ([101] ++ []) from by simp,
          show 1 + (([] : Bytes) ++ (d0 :: dt)).length
            = (([105] : Bytes) ++ (([] : Bytes) ++ (d0 :: dt))).length + 0 from by
            simp; omega,
          getD_append_right]
        rfl
      simp only [unmarshalInt, hlim, hgs, hga]
      rw [if_neg (by
        simp only [hterm, ge_iff_le]
        simp
        omega)]
      rw [if_neg (by simp)]
      simp
      omega
  · rw [if_neg (by simp)] at hr
    have hlim : intLimit (0 + 1 + 1) (105 :: (([43] : Bytes) ++ ds) ++ [101])
        = 1 + (([43] : Bytes) ++ ds).length := by
      rw [show (105 : Nat) :: (([43] : Bytes) ++ ds) ++ [101]
          = ([105, 43] : Bytes) ++ ds ++ [101] from by simp,
        show (0 : Nat) + 1 + 1 = ([105, 43] : Bytes).length from rfl,
        intLimit_at [105, 43] ds [101] hd (Or.inr (by simp [isDigit]))]
      simp
      omega
    have hgs : goSlice (105 :: (([43] : Bytes) ++ ds) ++ [101]) (0 + 1)
        (1 + (([43] : Bytes) ++ ds).length) = some (([43] : Bytes) ++ ds) := by
      rw [show (105 : Nat) :: (([43] : Bytes) ++ ds) ++ [101]
          = ([105] : Bytes) ++ (([43] : Bytes) ++ ds) ++ [101] from by simp,
        show (0 : Nat) + 1 = ([105] : Bytes).length from rfl]
      exact goSlice_at [105] (([43] : Bytes) ++ ds) [101]
    have hga : goAtoi (([43] : Bytes) ++ ds) = some (digitsToNat ds : Int) := by
      rw [show ([43] : Bytes) ++ ds = 43 :: ds from rfl]
      exact goAtoi_plus ds hne hd hr
    have hterm : (105 :: (([43] : Bytes) ++ ds) ++ [101]).getD
        (1 + (([43] : Bytes) ++ ds).length) 0 = 101 := by
      rw [show (105 : Nat) :: (([43] : Bytes) ++ ds) ++ [101]
          = (([105] : Bytes) ++ (([43] : Bytes) ++ ds)) ++ ([101] ++ []) from by simp,
        show 1 + (([43] : Bytes) ++ ds).length
          = (([105] : Bytes) ++ (([43] : Bytes) ++ ds)).length + 0 from by
          simp; omega,
        getD_append_right]
      rfl
    simp only [unmarshalInt, hlim, hgs, hga]
    rw [if_neg (by
      simp only [hterm, ge_iff_le]
      simp
      omega)]
    rw [if_neg (by simp)]
    simp
    omega
  · rw [if_pos rfl] at hr
    have hlim : intLimit (0 + 1 + 1) (105 :: (([45] : Bytes) ++ ds) ++ [101])
        = 1 + (([45] : Bytes) ++ ds).length := by
      rw [show (105 : Nat) :: (([45] : Bytes) ++ ds) ++ [101]
          = ([105, 45] : Bytes) ++ ds ++ [101] from by simp,
        show (0 : Nat) + 1 + 1 = ([105, 45] : Bytes).length from rfl,
        intLimit_at [105, 45] ds [101] hd (Or.inr (by simp [isDigit]))]
      simp
      omega
    have hgs : goSlice (105 :: (([45] : Bytes) ++ ds) ++ [101]) (0 + 1)
        (1 + (([45] : Bytes) ++ ds).length) = some (([45] : Bytes) ++ ds) := by
      rw [show (105 : Nat) :: (([45] : Bytes) ++ ds) ++ [101]
          = ([105] : Bytes) ++ (([45] : Bytes) ++ ds) ++ [101] from by simp,
        show (0 : Nat) + 1 = ([105] : Bytes).length from rfl]
      exact goSlice_at [105] (([45] : Bytes) ++ ds) [101]
    have hga : goAtoi (([45] : Bytes) ++ ds) = some (-(digitsToNat ds : Int)) := by
      rw [show ([45] : Bytes) ++ ds = 45 :: ds from rfl]
      exact goAtoi_neg ds hne hd hr
    have hterm : (105 :: (([45] : Bytes) ++ ds) ++ [101]).getD
        (1 + (([45] : Bytes) ++ ds).length) 0 = 101 := by
      rw [show (105 : Nat) :: (([45] : Bytes) ++ ds) ++ [101]
          = (([105] : Bytes) ++ (([45] : Bytes) ++ ds)) ++ ([101] ++ []) from by simp,
        show 1 + (([45] : Bytes) ++ ds).length
          = (([105] : Bytes) ++ (([45] : Bytes) ++ ds)).length + 0 from by
          simp; omega,
        getD_append_right]
      rfl
    simp only [unmarshalInt, hlim, hgs, hga]
    rw [if_neg (by
      simp only [hterm, ge_iff_le]
      simp
      omega)]
    simp
    omega

/-- `unmarshalNext`'s dispatch lands in `unmarshalInt` exactly on a live
`i` byte. -/
theorem decodeStep_next_int (st : Setter) (data : Bytes) (fuel : Nat)
    (t : Option HVal) (off : Nat) (hoff : off < data.length)
    (hb : data.getD off 0 = 105) :
    decodeStep st data (fuel + 1) .next t off = unmarshalInt st data t off := by
  simp only [decodeStep]
  rw [if_neg (by omega), if_pos hoff, hb]
  simp [isDigit]


/-- C6.  The integer wire grammar the decoder actually accepts, against
an `int64` target: exactly the inputs `i` `(sign?)digits` `e` whose
digits are non-empty and whose `strconv.Atoi` value fits in an `int64`
— so a leading-zero body (`i05e`), a negative zero (`i-0e`) and an
explicit plus sign (`i+5e`) are all accepted, contradicting the claimed
strict canonical grammar. -/
theorem claim_C6_amended (data : Bytes) :
    (Unmarshal data (.ptr (HVal.vint .w64 0))).1 = .ok () ↔
    ∃ sgn ds : Bytes, (sgn = [] ∨ sgn = [43] ∨ sgn = [45]) ∧ ds ≠ [] ∧
      (∀ d ∈ ds, isDigit d = true) ∧ data = 105 :: (sgn ++ ds) ++ [101] ∧
      (if sgn = [45] then (digitsToNat ds : Int) ≤ 2 ^ 63
       else (digitsToNat ds : Int) ≤ 2 ^ 63 - 1) := by
  constructor
  · intro h
    simp only [Unmarshal] at h
    rcases hfst : unmarshalNext noOpValueSetter (topFuel data) data
        (some (HVal.vint .w64 0)) 0 with ⟨t1, res⟩
    rw [hfst] at h
    cases res with
    | error e => simp at h
    | ok o =>
      by_cases htr : o < data.length
      · simp [htr] at h
      · rw [unmarshalNext] at hfst
        rw [show topFuel data = 4 * data.length + 7 + 1 from by
          simp only [topFuel]] at hfst
        simp only [decodeStep] at hfst
        by_cases hL0 : data.length = 0
        · rw [if_pos hL0] at hfst
          exact absurd (congrArg Prod.snd hfst) (by simp)
        · rw [if_neg hL0, if_pos (show (0 : Nat) < data.length by omega)] at hfst
          by_cases hdig : isDigit (data.getD 0 0) = true
          · rw [if_pos hdig] at hfst
            exact absurd (by simpa using congrArg Prod.snd hfst)
              (unmarshalString_vint_snd noOpValueSetter data .w64 0 0 o)
          · rw [if_neg hdig] at hfst
            by_cases h105 : data.getD 0 0 = 105
            · rw [if_pos h105] at hfst
              have hsnd : (unmarshalInt noOpValueSetter data
                  (some (HVal.vint .w64 0)) 0).2 = .ok o := by
                simpa using congrArg Prod.snd hfst
              obtain ⟨sub, i, hgs, hga, hle, hlt, hterm2, ho⟩ :=
                unmarshalInt_ok_inv _ _ _ _ _ hsnd
              have hlimv : intLimit (0 + 1 + 1) data = data.length - 1 := by
                omega
              rw [hlimv] at hgs hterm2 hle
              have hshape := int_node_shape data sub h105 hle hgs hterm2
              obtain ⟨sgn, ds, hsg, hdne, hdd, hsubeq, hrange⟩ :=
                goAtoi_inv sub i hga
              exact ⟨sgn, ds, hsg, hdne, hdd, by rw [hshape, hsubeq], hrange⟩
            · rw [if_neg h105] at hfst
              by_cases h108 : data.getD 0 0 = 108
              · rw [if_pos h108] at hfst
                exact absurd (congrArg Prod.snd hfst) (by simp)
              · rw [if_neg h108] at hfst
                by_cases h100 : data.getD 0 0 = 100
                · rw [if_pos h100] at hfst
                  exact absurd (congrArg Prod.snd hfst) (by simp)
                · rw [if_neg h100] at hfst
                  exact absurd (congrArg Prod.snd hfst) (by simp)
  · rintro ⟨sgn, ds, hsg, hdne, hdd, hdata, hrange⟩
    subst hdata
    have hF : topFuel (105 :: (sgn ++ ds) ++ [101])
        = 4 * (105 :: (sgn ++ ds) ++ [101]).length + 7 + 1 := by
      simp only [topFuel]
    have h1 : unmarshalNext noOpValueSetter
        (topFuel (105 :: (sgn ++ ds) ++ [101])) (105 :: (sgn ++ ds) ++ [101])
        (some (HVal.vint .w64 0)) 0
        = (some (HVal.vint .w64 0), .ok ((sgn ++ ds).length + 2)) := by
      have hstep : decodeStep noOpValueSetter (105 :: (sgn ++ ds) ++ [101])
          (4 * List.length (105 :: (sgn ++ ds) ++ [101]) + 7 + 1) .next
          (some (HVal.vint .w64 0)) 0
          = unmarshalInt noOpValueSetter (105 :: (sgn ++ ds) ++ [101])
              (some (HVal.vint .w64 0)) 0 :=
        decodeStep_next_int _ _ _ _ _ (by simp) (by rfl)
      rw [unmarshalNext, hF, hstep,
        unmarshalInt_wire noOpValueSetter 0 sgn ds hsg hdne hdd hrange]
      simp [noOpValueSetter]
    have h2 : unmarshalNext valueSetter
        (topFuel (105 :: (sgn ++ ds) ++ [101])) (105 :: (sgn ++ ds) ++ [101])
        (some (HVal.vint .w64 0)) 0
        = (some (HVal.vint .w64 (if sgn = [45] then -(digitsToNat ds : Int)
            else (digitsToNat ds : Int))), .ok ((sgn ++ ds).length + 2)) := by
      have hstep : decodeStep valueSetter (105 :: (sgn ++ ds) ++ [101])
          (4 * List.length (105 :: (sgn ++ ds) ++ [101]) + 7 + 1) .next
          (some (HVal.vint .w64 0)) 0
          = unmarshalInt valueSetter (105 :: (sgn ++ ds) ++ [101])
              (some (HVal.vint .w64 0)) 0 :=
        decodeStep_next_int _ _ _ _ _ (by simp) (by rfl)
      rw [unmarshalNext, hF, hstep,
        unmarshalInt_wire valueSetter 0 sgn ds hsg hdne hdd hrange]
      simp [valueSetter]
    simp only [Unmarshal, h1, Option.getD_some]
    rw [if_neg (by
      simp only [List.length_append, List.length_cons, not_lt]
      simp)]
    simp only [h2]

/-- Witness for C6: the amended grammar accepts `i+05e` (both a `+`
sign and a leading zero), and the decode succeeds. -/
theorem claim_C6_amended_witness :
    (Unmarshal [105, 43, 48, 53, 101] (GoArg.ptr (HVal.vint .w64 0))).1
      = .ok () :=
  (claim_C6_amended [105, 43, 48, 53, 101]).mpr
    ⟨[43], [48, 53], Or.inr (Or.inl rfl), by decide, by decide, by decide,
      by decide⟩


/-- C5.  Unknown-key tolerance.  First part: in the dictionary entry
loop, a key that is absent from the record's field mapping has its value
parsed with a nil target, and on success the loop continues past the
value with the record untouched.  Second part: the discarded value is
still checked against the grammar — a parse error in it aborts the
decode with that error.  Third part: the claim's literal example —
decoding `d3:xxxi1e1:xi2ee` into a record whose only member is tagged
`x` succeeds and sets that member to 2. -/
theorem claim_C5 :
    (∀ (st : Setter) (data : Bytes) (fuel : Nat)
        (fs : List (Bytes × Option Bytes × HVal))
        (offset start limit o2 : Nat) (t2 : Option HVal),
      offset < data.length → data.getD offset 0 ≠ 101 →
      isDigit (data.getD offset 0) = true →
      stringIndices offset data = .ok (start, limit) →
      lookupFieldIdx fs (extract data start limit) = none →
      decodeStep st data fuel .next none limit = (t2, .ok o2) →
      decodeStep st data (fuel + 1) .dloop (some (.vrecord fs)) offset
        = decodeStep st data fuel .dloop (some (.vrecord fs)) o2)
    ∧ (∀ (st : Setter) (data : Bytes) (fuel : Nat)
          (fs : List (Bytes × Option Bytes × HVal))
          (offset start limit : Nat) (t2 : Option HVal) (e : DErr),
        offset < data.length → data.getD offset 0 ≠ 101 →
        isDigit (data.getD offset 0) = true →
        stringIndices offset data = .ok (start, limit) →
        lookupFieldIdx fs (extract data start limit) = none →
        decodeStep st data fuel .next none limit = (t2, .error e) →
        decodeStep st data (fuel + 1) .dloop (some (.vrecord fs)) offset
          = (some (.vrecord fs), .error e))
    ∧ Unmarshal [100, 51, 58, 120, 120, 120, 105, 49, 101, 49, 58, 120,
          105, 50, 101, 101]
        (.ptr (.vrecord [([120], some [120], HVal.vint .w64 0)]))
      = (.ok (), .ptr (.vrecord [([120], some [120], HVal.vint .w64 2)])) := by
  refine ⟨?_, ?_, rfl⟩
  · intro st data fuel fs offset start limit o2 t2 hoff hne hdig hsi hlk hskip
    simp only [decodeStep, hdig, Bool.not_true, hsi, hlk, hskip]
    rw [if_pos ⟨hoff, hne⟩]
    simp
  · intro st data fuel fs offset start limit t2 e hoff hne hdig hsi hlk hskip
    simp only [decodeStep, hdig, Bool.not_true, hsi, hlk, hskip]
    rw [if_pos ⟨hoff, hne⟩]
    simp

/-- Witness for C5: inside the claim's own example, the first entry's
key `xxx` is unmapped; the loop at the key's offset 1 skips its parsed
value `i1e` and continues at offset 9 with the record unchanged. -/
theorem claim_C5_witness :
    decodeStep valueSetter [100, 51, 58, 120, 120, 120, 105, 49, 101, 49,
        58, 120, 105, 50, 101, 101] (12 + 1) .dloop
      (some (.vrecord [([120], some [120], HVal.vint .w64 0)])) 1
      = decodeStep valueSetter [100, 51, 58, 120, 120, 120, 105, 49, 101,
          49, 58, 120, 105, 50, 101, 101] 12 .dloop
        (some (.vrecord [([120], some [120], HVal.vint .w64 0)])) 9 :=
  claim_C5.1 valueSetter
    [100, 51, 58, 120, 120, 120, 105, 49, 101, 49, 58, 120, 105, 50, 101, 101]
    12 [([120], some [120], HVal.vint .w64 0)] 1 3 6 9 none
    (by decide) (by decide) (by decide) rfl rfl rfl


/-! ## Well-typed values and the round-trip (C1) -/

mutual

/-- Structural equality of host values (a decision procedure; the
nested inductive gets no derived `DecidableEq`). -/
def hvalBEq : HVal → HVal → Bool
  | .vint w i, .vint w2 i2 => w = w2 && i = i2
  | .vuint w u, .vuint w2 u2 => w = w2 && u = u2
  | .viface a, .viface b => hvalBEq a b
  | .vstr s, .vstr s2 => s = s2
  | .vslice z es, .vslice z2 es2 => hvalBEq z z2 && elemsBEq es es2
  | .vrecord fs, .vrecord fs2 => fieldsBEq fs fs2
  | .vunsup, .vunsup => true
  | _, _ => false

def elemsBEq : List HVal → List HVal → Bool
  | [], [] => true
  | e :: tl, e2 :: tl2 => hvalBEq e e2 && elemsBEq tl tl2
  | _, _ => false

def fieldsBEq : List (Bytes × Option Bytes × HVal) →
    List (Bytes × Option Bytes × HVal) → Bool
  | [], [] => true
  | (k, b, v) :: tl, (k2, b2, v2) :: tl2 =>
    k = k2 && b = b2 && hvalBEq v v2 && fieldsBEq tl tl2
  | _, _ => false

end

mutual

/-- The values the amended round-trip covers: `int64` scalars in range,
ASCII strings, slices whose members all share the slice's element type,
and structs whose members carry a non-empty ASCII `key` tag, a
`bencode` tag equal to it, distinct tags, and covered values.  String
and key lengths stay within `int64`, as for every real Go string. -/
def wfB : HVal → Bool
  | .vint .w64 i => decide (-(2 ^ 63) ≤ i) && decide (i < 2 ^ 63)
  | .vstr s => isASCII s && decide (s.length ≤ 2 ^ 63 - 1)
  | .vslice z es => wfElems z es
  | .vrecord fs => wfFields fs && decide ((fs.map (·.1)).Nodup)
  | _ => false

def wfElems (z : HVal) : List HVal → Bool
  | [] => true
  | e :: tl => hvalBEq (zero z) (zero e) && wfB e && wfElems z tl

def wfFields : List (Bytes × Option Bytes × HVal) → Bool
  | [] => true
  | (k, b, v) :: tl =>
    decide (k ≠ []) && decide (b = some k) && isASCII k
      && decide (k.length ≤ 2 ^ 63 - 1) && wfB v && wfFields tl

end

mutual

/-- Fuel sufficient for the decoder on a value's encoding: each node
costs its dispatch unfoldings, each sequence or dictionary member its
loop iteration plus its own cost. -/
def dFuel : HVal → Nat
  | .vslice _ es => 3 + dFuelL es
  | .vrecord fs => 3 + dFuelF fs
  | _ => 1

def dFuelL : List HVal → Nat
  | [] => 0
  | e :: tl => 2 + dFuel e + dFuelL tl

def dFuelF : List (Bytes × Option Bytes × HVal) → Nat
  | [] => 0
  | (_, _, v) :: tl => 2 + dFuel v + dFuelF tl

end

/-- The record produced by the dictionary loop after processing a list
of keys: each key's mapped field is overwritten with the member value
the encoder emitted for that key. -/
def dictSetAll (fs0 : List (Bytes × Option Bytes × HVal)) :
    List (Bytes × Option Bytes × HVal) → List Bytes →
    List (Bytes × Option Bytes × HVal)
  | cur, [] => cur
  | cur, k :: tl =>
    dictSetAll fs0
      (setFieldVal cur ((lookupFieldIdx fs0 k).getD 0) (assocVal fs0 k)) tl

mutual

theorem hvalBEq_eq (a b : HVal) (h : hvalBEq a b = true) : a = b := by
  cases a <;> cases b <;> simp_all [hvalBEq]
  case viface.viface x y => exact hvalBEq_eq x y h
  case vslice.vslice z es z2 es2 =>
    exact ⟨hvalBEq_eq z z2 h.1, elemsBEq_eq es es2 h.2⟩
  case vrecord.vrecord fs fs2 => exact fieldsBEq_eq fs fs2 h

theorem elemsBEq_eq (es es2 : List HVal) (h : elemsBEq es es2 = true) :
    es = es2 := by
  cases es with
  | nil =>
    cases es2 with
    | nil => rfl
    | cons e2 tl2 => simp [elemsBEq] at h
  | cons e tl =>
    cases es2 with
    | nil => simp [elemsBEq] at h
    | cons e2 tl2 =>
      simp only [elemsBEq, Bool.and_eq_true] at h
      rw [hvalBEq_eq e e2 h.1, elemsBEq_eq tl tl2 h.2]

theorem fieldsBEq_eq (fs fs2 : List (Bytes × Option Bytes × HVal))
    (h : fieldsBEq fs fs2 = true) : fs = fs2 := by
  cases fs with
  | nil =>
    cases fs2 with
    | nil => rfl
    | cons f2 tl2 => simp [fieldsBEq] at h
  | cons f tl =>
    cases fs2 with
    | nil =>
      obtain ⟨k, b, v⟩ := f
      simp [fieldsBEq] at h
    | cons f2 tl2 =>
      obtain ⟨k, b, v⟩ := f
      obtain ⟨k2, b2, v2⟩ := f2
      simp only [fieldsBEq, Bool.and_eq_true, decide_eq_true_eq] at h
      rw [h.1.1.1, h.1.1.2, hvalBEq_eq v v2 h.1.2, fieldsBEq_eq tl tl2 h.2]

end

/-- Layout of an integer node. -/
theorem encB_int (w : IW) (i : Int) :
    encBytes (.vint w i) = 105 :: intToDigits i ++ [101]
      ∧ encErr (.vint w i) = none := by
  constructor <;> simp [encBytes, encErr, marshal, marshalInt]

/-- Layout of a string node. -/
theorem encB_str (s : Bytes) (h : isASCII s = true) :
    encBytes (.vstr s) = strEnc s ∧ encErr (.vstr s) = none := by
  constructor <;> simp [encBytes, encErr, marshal, marshalString, h, strEnc]

/-- The list loop concatenates the members' encodings and closes with
`e` when every member encodes cleanly. -/
theorem marshalListA_wf (es : List HVal) (h : ∀ e ∈ es, encErr e = none)
    (w : Bytes) :
    marshalListA es w = (w ++ (es.map encBytes).join ++ [101], none) := by
  induction es generalizing w with
  | nil => simp [marshalListA]
  | cons e tl ih =>
    have he : (marshal e []).2 = none := h e (by simp)
    rw [marshalListA, marshal_append e w]
    simp only [he]
    rw [ih (fun x hx => h x (by simp [hx]))]
    simp [encBytes, List.append_assoc]

/-- Layout of a list node. -/
theorem encB_slice (z : HVal) (es : List HVal)
    (h : ∀ e ∈ es, encErr e = none) :
    encBytes (.vslice z es) = 108 :: (es.map encBytes).join ++ [101]
      ∧ encErr (.vslice z es) = none := by
  have hm : marshal (.vslice z es) [] = marshalListA es ([] ++ [108]) := by
    simp [marshal]
  rw [encBytes, encErr, hm, marshalListA_wf es h]
  simp

/-- Layout of a dictionary node (member errors are dropped by the
source, so none surface). -/
theorem encB_record (fs : List (Bytes × Option Bytes × HVal))
    (hne : ((fs.map (·.1)).contains []) = false)
    (hascii : ∀ k ∈ fs.map (·.1), isASCII k = true) :
    encBytes (.vrecord fs)
        = 100 :: (((fs.map (·.1)).mergeSort lexLe).map
            (fun k => strEnc k ++ encBytes (valueOfTag fs k))).join ++ [101]
      ∧ encErr (.vrecord fs) = none := by
  have hm : marshal (.vrecord fs) [] = marshalStruct fs [] := by
    simp [marshal]
  rw [encBytes, encErr, hm, marshalStruct]
  simp only [hne, Bool.false_eq_true, if_false, List.nil_append]
  rw [marshalKeysA_format fs _ [100] (fun k hk => hascii k
    (((fs.map (·.1)).mergeSort_perm lexLe).mem_iff.mp hk))]
  simp

/-- Per-member facts of a covered struct. -/
theorem wfFields_props (fs : List (Bytes × Option Bytes × HVal))
    (h : wfFields fs = true) :
    ∀ f ∈ fs, f.1 ≠ [] ∧ f.2.1 = some f.1 ∧ isASCII f.1 = true
      ∧ f.1.length ≤ 2 ^ 63 - 1 ∧ wfB f.2.2 = true := by
  induction fs with
  | nil => simp
  | cons f tl ih =>
    obtain ⟨k, b, v⟩ := f
    simp only [wfFields, Bool.and_eq_true, decide_eq_true_eq] at h
    intro g hg
    rcases List.mem_cons.mp hg with hg | hg
    · subst hg
      exact ⟨h.1.1.1.1.1, h.1.1.1.1.2, h.1.1.1.2, h.1.1.2, h.1.2⟩
    · exact ih h.2 g hg

/-- No covered struct has an empty tag. -/
theorem wfFields_no_nil_tag (fs : List (Bytes × Option Bytes × HVal))
    (h : wfFields fs = true) : ((fs.map (·.1)).contains []) = false := by
  have hnm : ([] : Bytes) ∉ fs.map (·.1) := by
    intro hm
    obtain ⟨f, hf, hf1⟩ := List.mem_map.mp hm
    exact (wfFields_props fs h f hf).1 hf1
  simpa using hnm

/-- The member value mapped to a present tag is covered. -/
theorem assocVal_wfB (fs : List (Bytes × Option Bytes × HVal))
    (h : wfFields fs = true) (k : Bytes) (hk : k ∈ fs.map (·.1)) :
    wfB (assocVal fs k) = true := by
  induction fs with
  | nil => simp at hk
  | cons f tl ih =>
    obtain ⟨k0, b0, v0⟩ := f
    simp only [wfFields, Bool.and_eq_true, decide_eq_true_eq] at h
    simp only [assocVal]
    by_cases he : k0 = k
    · rw [if_pos he]
      exact h.1.2
    · rw [if_neg he]
      refine ih h.2 ?_
      rcases List.mem_map.mp hk with ⟨g, hg, hgk⟩
      rcases List.mem_cons.mp hg with hg | hg
      · exact absurd (by rw [hg] at hgk; exact hgk) he
      · exact List.mem_map.mpr ⟨g, hg, hgk⟩

mutual

/-- A covered value encodes without error. -/
theorem encErrNone (v : HVal) (h : wfB v = true) : encErr v = none := by
  cases v with
  | vint w i => exact (encB_int w i).2
  | vstr s =>
    simp only [wfB, Bool.and_eq_true] at h
    exact (encB_str s h.1).2
  | vslice z es => exact (encB_slice z es (encErrNoneL z es h)).2
  | vrecord fs =>
    simp only [wfB, Bool.and_eq_true] at h
    refine (encB_record fs (wfFields_no_nil_tag fs h.1) ?_).2
    intro k hk
    rcases List.mem_map.mp hk with ⟨f, hf, hfk⟩
    rw [← hfk]
    exact (wfFields_props fs h.1 f hf).2.2.1
  | vuint w u => simp [wfB] at h
  | viface x => simp [wfB] at h
  | vunsup => simp [wfB] at h

theorem encErrNoneL (z : HVal) (es : List HVal) (h : wfElems z es = true) :
    ∀ e ∈ es, encErr e = none := by
  cases es with
  | nil => simp
  | cons e tl =>
    simp only [wfElems, Bool.and_eq_true] at h
    intro x hx
    rcases List.mem_cons.mp hx with hx | hx
    · rw [hx]
      exact encErrNone e h.1.2
    · exact encErrNoneL z tl h.2 x hx

end

/-- Every covered encoding starts with a byte other than `e`. -/
theorem encB_head_ne (v : HVal) (h : wfB v = true) :
    ∃ b t2, encBytes v = b :: t2 ∧ b ≠ 101 := by
  cases v with
  | vint w i =>
    exact ⟨105, intToDigits i ++ [101], by simpa using (encB_int w i).1, by omega⟩
  | vstr s =>
    simp only [wfB, Bool.and_eq_true] at h
    rw [(encB_str s h.1).1, strEnc]
    cases hd : natToDigits s.length with
    | nil => exact absurd hd (natToDigits_ne_nil _)
    | cons d dt =>
      have hdig := natToDigits_all_digits s.length
      rw [hd] at hdig
      have := hdig d (by simp)
      simp only [isDigit, Bool.and_eq_true, decide_eq_true_eq] at this
      exact ⟨d, dt ++ 58 :: s, by simp, by omega⟩
  | vslice z es =>
    exact ⟨108, (es.map encBytes).join ++ [101],
      by simpa using (encB_slice z es (encErrNoneL z es h)).1, by omega⟩
  | vrecord fs =>
    simp only [wfB, Bool.and_eq_true] at h
    refine ⟨100, _, (encB_record fs (wfFields_no_nil_tag fs h.1) ?_).1, by omega⟩
    intro k hk
    rcases List.mem_map.mp hk with ⟨f, hf, hfk⟩
    rw [← hfk]
    exact (wfFields_props fs h.1 f hf).2.2.1
  | vuint w u => simp [wfB] at h
  | viface x => simp [wfB] at h
  | vunsup => simp [wfB] at h


/-! ## Record bookkeeping for the round-trip -/

theorem lfAux_shift (fs : List (Bytes × Option Bytes × HVal)) (k : Bytes)
    (i : Nat) : lfAux fs k (i + 1) = (lfAux fs k i).map (· + 1) := by
  induction fs generalizing i with
  | nil => simp [lfAux]
  | cons f rest ih =>
    simp only [lfAux]
    rw [ih (i + 1)]
    cases h : lfAux rest k (i + 1) with
    | some j => simp [h]
    | none =>
      simp only [Option.map]
      split <;> simp

theorem lfAux_not_mem (fs : List (Bytes × Option Bytes × HVal)) (k : Bytes)
    (i : Nat) (h : ∀ f ∈ fs, f.2.1 ≠ some k) : lfAux fs k i = none := by
  induction fs generalizing i with
  | nil => rfl
  | cons f rest ih =>
    simp only [lfAux, ih (i + 1) (fun g hg => h g (by simp [hg]))]
    simp [h f (by simp)]

/-- Under distinct tags with `bencode` tags equal to `key` tags, the
`structValues` lookup finds exactly the member owning the tag. -/
theorem lookup_spec (fs : List (Bytes × Option Bytes × HVal)) (k : Bytes)
    (hnd : (fs.map (·.1)).Nodup)
    (hbt : ∀ f ∈ fs, f.2.1 = some f.1)
    (hk : k ∈ fs.map (·.1)) :
    ∃ i, lookupFieldIdx fs k = some i ∧ i < fs.length
      ∧ (fs.getD i ([], none, .vunsup)).1 = k
      ∧ fieldValAt fs i = assocVal fs k := by
  induction fs with
  | nil => simp at hk
  | cons f tl ih =>
    obtain ⟨k0, b0, v0⟩ := f
    simp only [List.map_cons, List.nodup_cons] at hnd
    by_cases he : k0 = k
    · subst he
      have hnm : ∀ g ∈ tl, g.2.1 ≠ some k0 := by
        intro g hg hc
        rw [hbt g (by simp [hg])] at hc
        exact hnd.1 (List.mem_map.mpr ⟨g, hg, Option.some.inj hc⟩)
      refine ⟨0, ?_, by simp, by simp, ?_⟩
      · simp only [lookupFieldIdx, lfAux, lfAux_not_mem tl k0 1 hnm]
        rw [if_pos (hbt (k0, b0, v0) (by simp))]
      · simp [fieldValAt, assocVal]
    · have hktl : k ∈ tl.map (·.1) := by
        rcases List.mem_cons.mp hk with h2 | h2
        · exact absurd h2.symm he
        · exact h2
      obtain ⟨i, hlk, hilt, htag, hval⟩ :=
        ih hnd.2 (fun g hg => hbt g (by simp [hg])) hktl
      refine ⟨i + 1, ?_, by simp; omega, by simpa using htag, ?_⟩
      · rw [show lookupFieldIdx ((k0, b0, v0) :: tl) k
            = (match lfAux tl k (0 + 1) with
               | some j => some j
               | none => if (k0, b0, v0).2.1 = some k then some 0 else none)
            from rfl,
          lfAux_shift, show lfAux tl k 0 = lookupFieldIdx tl k from rfl, hlk]
        rfl
      · simp only [fieldValAt, List.getD_cons_succ, assocVal, if_neg he]
        exact hval

theorem setFieldVal_map1 (fs : List (Bytes × Option Bytes × HVal)) (i : Nat)
    (v : HVal) : (setFieldVal fs i v).map (·.1) = fs.map (·.1) := by
  induction fs generalizing i with
  | nil => cases i <;> rfl
  | cons f rest ih =>
    obtain ⟨k, b, v0⟩ := f
    cases i with
    | zero => rfl
    | succ n => simp [setFieldVal, ih n]

theorem setFieldVal_map21 (fs : List (Bytes × Option Bytes × HVal)) (i : Nat)
    (v : HVal) : (setFieldVal fs i v).map (·.2.1) = fs.map (·.2.1) := by
  induction fs generalizing i with
  | nil => cases i <;> rfl
  | cons f rest ih =>
    obtain ⟨k, b, v0⟩ := f
    cases i with
    | zero => rfl
    | succ n => simp [setFieldVal, ih n]

theorem setFieldVal_length (fs : List (Bytes × Option Bytes × HVal)) (i : Nat)
    (v : HVal) : (setFieldVal fs i v).length = fs.length := by
  induction fs generalizing i with
  | nil => cases i <;> rfl
  | cons f rest ih =>
    cases i with
    | zero => obtain ⟨k, b, v0⟩ := f; rfl
    | succ n => simp [setFieldVal, ih n]

theorem fieldValAt_set_self (fs : List (Bytes × Option Bytes × HVal)) (i : Nat)
    (v : HVal) (h : i < fs.length) :
    fieldValAt (setFieldVal fs i v) i = v := by
  induction fs generalizing i with
  | nil => simp at h
  | cons f rest ih =>
    obtain ⟨k, b, v0⟩ := f
    cases i with
    | zero => rfl
    | succ n =>
      simp only [setFieldVal, fieldValAt, List.getD_cons_succ]
      exact ih n (by simpa using h)

theorem fieldValAt_set_ne (fs : List (Bytes × Option Bytes × HVal)) (i j : Nat)
    (v : HVal) (h : i ≠ j) :
    fieldValAt (setFieldVal fs i v) j = fieldValAt fs j := by
  induction fs generalizing i j with
  | nil => cases i <;> rfl
  | cons f rest ih =>
    obtain ⟨k, b, v0⟩ := f
    cases i with
    | zero =>
      cases j with
      | zero => exact absurd rfl h
      | succ m => rfl
    | succ n =>
      cases j with
      | zero => rfl
      | succ m =>
        simp only [setFieldVal, fieldValAt, List.getD_cons_succ]
        exact ih n m (by omega)

/-- `lookupFieldIdx` depends only on the `bencode` tags. -/
theorem lookup_btags (fs1 fs2 : List (Bytes × Option Bytes × HVal)) (k : Bytes)
    (h : fs1.map (·.2.1) = fs2.map (·.2.1)) :
    lookupFieldIdx fs1 k = lookupFieldIdx fs2 k := by
  suffices hs : ∀ i, lfAux fs1 k i = lfAux fs2 k i from hs 0
  induction fs1 generalizing fs2 with
  | nil =>
    cases fs2 with
    | nil => intro i; rfl
    | cons f2 tl2 => simp at h
  | cons f1 tl1 ih =>
    cases fs2 with
    | nil => simp at h
    | cons f2 tl2 =>
      simp only [List.map_cons, List.cons.injEq] at h
      intro i
      simp only [lfAux, ih tl2 h.2 (i + 1), h.1]

theorem zeroFields_map1 (fs : List (Bytes × Option Bytes × HVal)) :
    (zeroFields fs).map (·.1) = fs.map (·.1) := by
  induction fs with
  | nil => rfl
  | cons f rest ih =>
    obtain ⟨k, b, v⟩ := f
    simp [zeroFields, ih]

theorem zeroFields_map21 (fs : List (Bytes × Option Bytes × HVal)) :
    (zeroFields fs).map (·.2.1) = fs.map (·.2.1) := by
  induction fs with
  | nil => rfl
  | cons f rest ih =>
    obtain ⟨k, b, v⟩ := f
    simp [zeroFields, ih]

theorem zeroFields_length (fs : List (Bytes × Option Bytes × HVal)) :
    (zeroFields fs).length = fs.length := by
  induction fs with
  | nil => rfl
  | cons f rest ih =>
    obtain ⟨k, b, v⟩ := f
    simp [zeroFields, ih]

theorem fieldValAt_zeroFields (fs : List (Bytes × Option Bytes × HVal))
    (i : Nat) : fieldValAt (zeroFields fs) i = zero (fieldValAt fs i) := by
  induction fs generalizing i with
  | nil => cases i <;> simp [zeroFields, fieldValAt, List.getD, zero]
  | cons f rest ih =>
    obtain ⟨k, b, v⟩ := f
    cases i with
    | zero => rfl
    | succ n =>
      simp only [zeroFields, fieldValAt, List.getD_cons_succ]
      exact ih n

theorem fieldValAt_out (fs : List (Bytes × Option Bytes × HVal)) (j : Nat)
    (h : fs.length ≤ j) : fieldValAt fs j = .vunsup := by
  have hd : fs.getD j ([], none, .vunsup) = ([], none, .vunsup) :=
    List.getD_eq_default fs _ h
  show (fs.getD j ([], none, HVal.vunsup)).2.2 = HVal.vunsup
  rw [hd]

/-- Looking up a member's own tag finds its value. -/
theorem assocVal_own (fs : List (Bytes × Option Bytes × HVal))
    (hnd : (fs.map (·.1)).Nodup) (j : Nat) (hj : j < fs.length) :
    assocVal fs ((fs.getD j ([], none, .vunsup)).1) = fieldValAt fs j := by
  induction fs generalizing j with
  | nil => simp at hj
  | cons f tl ih =>
    obtain ⟨k0, b0, v0⟩ := f
    simp only [List.map_cons, List.nodup_cons] at hnd
    cases j with
    | zero => simp [assocVal, fieldValAt]
    | succ n =>
      have hn : n < tl.length := by simpa using hj
      have hmem : (tl.getD n ([], none, HVal.vunsup)).1 ∈ tl.map (·.1) := by
        refine List.mem_map.mpr ⟨tl.getD n ([], none, HVal.vunsup), ?_, rfl⟩
        rw [List.getD_eq_getElem tl _ hn]
        exact List.getElem_mem hn
      have hne : k0 ≠ (tl.getD n ([], none, HVal.vunsup)).1 := by
        intro hc
        exact hnd.1 (hc ▸ hmem)
      simp only [List.getD_cons_succ, assocVal, if_neg hne, fieldValAt]
      exact ih hnd.2 n hn

/-- Distinct tags pin each tag to one index. -/
theorem tag_index_inj (fs : List (Bytes × Option Bytes × HVal))
    (hnd : (fs.map (·.1)).Nodup) (i j : Nat) (hi : i < fs.length)
    (hj : j < fs.length)
    (h : (fs.getD i ([], none, .vunsup)).1 = (fs.getD j ([], none, .vunsup)).1) :
    i = j := by
  have hi2 : i < (fs.map (·.1)).length := by simpa using hi
  have hj2 : j < (fs.map (·.1)).length := by simpa using hj
  have hgi : (fs.map (·.1))[i] = (fs.getD i ([], none, .vunsup)).1 := by
    rw [List.getElem_map, List.getD_eq_getElem fs _ hi]
  have hgj : (fs.map (·.1))[j] = (fs.getD j ([], none, .vunsup)).1 := by
    rw [List.getElem_map, List.getD_eq_getElem fs _ hj]
  exact (List.Nodup.getElem_inj_iff hnd).mp (by rw [hgi, hgj, h])

theorem dictSetAll_map1 (fs0 : List (Bytes × Option Bytes × HVal))
    (keys : List Bytes) (cur : List (Bytes × Option Bytes × HVal)) :
    (dictSetAll fs0 cur keys).map (·.1) = cur.map (·.1) := by
  induction keys generalizing cur with
  | nil => rfl
  | cons k tl ih => rw [dictSetAll, ih, setFieldVal_map1]

theorem dictSetAll_map21 (fs0 : List (Bytes × Option Bytes × HVal))
    (keys : List Bytes) (cur : List (Bytes × Option Bytes × HVal)) :
    (dictSetAll fs0 cur keys).map (·.2.1) = cur.map (·.2.1) := by
  induction keys generalizing cur with
  | nil => rfl
  | cons k tl ih => rw [dictSetAll, ih, setFieldVal_map21]

theorem dictSetAll_length (fs0 : List (Bytes × Option Bytes × HVal))
    (keys : List Bytes) (cur : List (Bytes × Option Bytes × HVal)) :
    (dictSetAll fs0 cur keys).length = cur.length := by
  induction keys generalizing cur with
  | nil => rfl
  | cons k tl ih => rw [dictSetAll, ih, setFieldVal_length]

/-- Member values after the dictionary loop: a member whose tag was
processed holds the encoder's value for that tag, any other keeps its
prior value. -/
theorem dictSetAll_val (fs0 : List (Bytes × Option Bytes × HVal))
    (hnd : (fs0.map (·.1)).Nodup)
    (hbt : ∀ f ∈ fs0, f.2.1 = some f.1) (keys : List Bytes) :
    ∀ (cur : List (Bytes × Option Bytes × HVal)), cur.length = fs0.length →
      (∀ k ∈ keys, k ∈ fs0.map (·.1)) →
      ∀ j, j < fs0.length →
        fieldValAt (dictSetAll fs0 cur keys) j
          = if (fs0.getD j ([], none, .vunsup)).1 ∈ keys
            then assocVal fs0 ((fs0.getD j ([], none, .vunsup)).1)
            else fieldValAt cur j := by
  induction keys with
  | nil =>
    intro cur hlen hmem j hj
    simp [dictSetAll]
  | cons k tl ih =>
    intro cur hlen hmem j hj
    obtain ⟨i, hlk, hilt, htag, hval⟩ :=
      lookup_spec fs0 k hnd hbt (hmem k (by simp))
    rw [dictSetAll, hlk]
    simp only [Option.getD_some]
    rw [ih (setFieldVal cur i (assocVal fs0 k))
      (by rw [setFieldVal_length]; exact hlen)
      (fun k2 hk2 => hmem k2 (by simp [hk2])) j hj]
    by_cases htl : (fs0.getD j ([], none, .vunsup)).1 ∈ tl
    · rw [if_pos htl, if_pos (List.mem_cons_of_mem k htl)]
    · rw [if_neg htl]
      by_cases hk : (fs0.getD j ([], none, .vunsup)).1 = k
      · rw [if_pos (hk ▸ List.mem_cons_self k tl)]
        have hij : i = j := tag_index_inj fs0 hnd i j hilt hj (by rw [htag, hk])
        rw [← hij, fieldValAt_set_self cur i (assocVal fs0 k) (by omega), htag]
      · rw [if_neg (fun hc => (List.mem_cons.mp hc).elim hk htl)]
        have hij : i ≠ j := by
          intro hc
          rw [hc] at htag
          exact hk htag
        rw [fieldValAt_set_ne cur i j _ hij]

/-- Field lists agreeing on tags, `bencode` tags and every member value
are equal. -/
theorem fields_ext (fs1 fs2 : List (Bytes × Option Bytes × HVal))
    (h1 : fs1.map (·.1) = fs2.map (·.1))
    (h21 : fs1.map (·.2.1) = fs2.map (·.2.1))
    (hv : ∀ j, fieldValAt fs1 j = fieldValAt fs2 j) : fs1 = fs2 := by
  induction fs1 generalizing fs2 with
  | nil =>
    cases fs2 with
    | nil => rfl
    | cons f2 tl2 => simp at h1
  | cons f1 tl1 ih =>
    cases fs2 with
    | nil => simp at h1
    | cons f2 tl2 =>
      obtain ⟨k1, b1, v1⟩ := f1
      obtain ⟨k2, b2, v2⟩ := f2
      simp only [List.map_cons, List.cons.injEq] at h1 h21
      have hv0 := hv 0
      simp only [fieldValAt, List.getD_cons_zero] at hv0
      rw [h1.1, h21.1, hv0,
        ih tl2 h1.2 h21.2 (fun j => by
          have := hv (j + 1)
          simpa [fieldValAt] using this)]

/-- Processing every tag exactly once turns the zero record back into
the original. -/
theorem dictSetAll_zero (fs : List (Bytes × Option Bytes × HVal))
    (hnd : (fs.map (·.1)).Nodup)
    (hbt : ∀ f ∈ fs, f.2.1 = some f.1) (keys : List Bytes)
    (hsub : ∀ k ∈ keys, k ∈ fs.map (·.1))
    (hall : ∀ k ∈ fs.map (·.1), k ∈ keys) :
    dictSetAll fs (zeroFields fs) keys = fs := by
  refine fields_ext _ _ (by rw [dictSetAll_map1, zeroFields_map1])
    (by rw [dictSetAll_map21, zeroFields_map21]) ?_
  intro j
  by_cases hj : j < fs.length
  · rw [dictSetAll_val fs hnd hbt keys (zeroFields fs) (zeroFields_length fs)
      hsub j hj]
    have hmem : (fs.getD j ([], none, .vunsup)).1 ∈ fs.map (·.1) := by
      refine List.mem_map.mpr ⟨fs.getD j ([], none, .vunsup), ?_, rfl⟩
      rw [List.getD_eq_getElem fs _ hj]
      exact List.getElem_mem hj
    rw [if_pos (hall _ hmem), assocVal_own fs hnd j hj]
  · rw [fieldValAt_out _ j (by rw [dictSetAll_length, zeroFields_length]; omega),
      fieldValAt_out _ j (by omega)]

/-- The loop fuel over the sorted tags equals the structural field
fuel. -/
theorem tagsSum (fs : List (Bytes × Option Bytes × HVal))
    (hnd : (fs.map (·.1)).Nodup) :
    ((fs.map (·.1)).map (fun k => 2 + dFuel (assocVal fs k))).sum
      = dFuelF fs := by
  induction fs with
  | nil => rfl
  | cons f tl ih =>
    obtain ⟨k0, b0, v0⟩ := f
    simp only [List.map_cons, List.nodup_cons] at hnd
    simp only [List.map_cons, List.sum_cons, dFuelF]
    rw [show assocVal ((k0, b0, v0) :: tl) k0 = v0 from by simp [assocVal]]
    rw [List.map_congr_left (fun k hk => by
      have hne : k0 ≠ k := by
        intro hc
        exact hnd.1 (hc ▸ hk)
      rw [show assocVal ((k0, b0, v0) :: tl) k = assocVal tl k from by
        simp [assocVal, if_neg hne]])]
    rw [ih hnd.2]

theorem kFuel_perm (fs : List (Bytes × Option Bytes × HVal))
    (hnd : (fs.map (·.1)).Nodup) (keys : List Bytes)
    (hp : keys.Perm (fs.map (·.1))) :
    (keys.map (fun k => 2 + dFuel (assocVal fs k))).sum = dFuelF fs := by
  rw [List.Perm.sum_eq (hp.map _), tagsSum fs hnd]

theorem sizeOf_assocVal_le (fs : List (Bytes × Option Bytes × HVal))
    (k : Bytes) : sizeOf (assocVal fs k) ≤ sizeOf fs := by
  induction fs with
  | nil => simp [assocVal]
  | cons f rest ih =>
    obtain ⟨k0, b0, v0⟩ := f
    simp only [assocVal]
    split
    · simp <;> omega
    · have := ih
      simp <;> omega


/-! ## Dispatch unfoldings and fuel bounds -/

theorem join_cons_length (a : Bytes) (l : List Bytes) :
    ((a :: l).join).length = a.length + (l.join).length := by
  simp

theorem decodeStep_next_str (st : Setter) (data : Bytes) (fuel : Nat)
    (t : Option HVal) (off : Nat) (hoff : off < data.length)
    (hb : isDigit (data.getD off 0) = true) :
    decodeStep st data (fuel + 1) .next t off = unmarshalString st data t off := by
  simp only [decodeStep]
  rw [if_neg (by omega), if_pos hoff, if_pos hb]

theorem decodeStep_next_108 (st : Setter) (data : Bytes) (fuel : Nat)
    (t : Option HVal) (off : Nat) (hoff : off < data.length)
    (hb : data.getD off 0 = 108) :
    decodeStep st data (fuel + 1) .next t off
      = decodeStep st data fuel .list t off := by
  simp only [decodeStep]
  rw [if_neg (by omega), if_pos hoff, hb]
  simp [isDigit]

theorem decodeStep_next_100 (st : Setter) (data : Bytes) (fuel : Nat)
    (t : Option HVal) (off : Nat) (hoff : off < data.length)
    (hb : data.getD off 0 = 100) :
    decodeStep st data (fuel + 1) .next t off
      = decodeStep st data fuel .dict t off := by
  simp only [decodeStep]
  rw [if_neg (by omega), if_pos hoff, hb]
  simp [isDigit]

theorem decodeStep_list_slice (st : Setter) (data : Bytes) (fuel : Nat)
    (z : HVal) (es0 : List HVal) (off : Nat) :
    decodeStep st data (fuel + 1) .list (some (.vslice z es0)) off
      = decodeStep st data fuel .lloop (some (.vslice z es0)) (off + 1) := by
  simp only [decodeStep]

theorem decodeStep_dict_record (st : Setter) (data : Bytes) (fuel : Nat)
    (fs : List (Bytes × Option Bytes × HVal)) (off : Nat) :
    decodeStep st data (fuel + 1) .dict (some (.vrecord fs)) off
      = decodeStep st data fuel .dloop (some (.vrecord fs)) (off + 1) := by
  simp only [decodeStep]

/-- The structural fuel is dominated by the encoding's length. -/
theorem dFuel_le_aux :
    ∀ n v, sizeOf v ≤ n → wfB v = true → dFuel v + 2 ≤ 4 * (encBytes v).length := by
  intro n
  induction n using Nat.strong_induction_on with
  | _ n ih =>
    intro v hn hw
    cases v with
    | vint w i =>
      rw [show dFuel (.vint w i) = 1 from rfl, (encB_int w i).1]
      simp
      omega
    | vstr s =>
      simp only [wfB, Bool.and_eq_true] at hw
      rw [show dFuel (.vstr s) = 1 from rfl, (encB_str s hw.1).1, strEnc]
      have := List.length_pos.mpr (natToDigits_ne_nil s.length)
      simp
      omega
    | vslice z es =>
      have hszes : sizeOf es < n := by
        have : sizeOf es < sizeOf (HVal.vslice z es) := by
          simp <;> omega
        omega
      have hL : ∀ es2 : List HVal, sizeOf es2 ≤ sizeOf es →
          wfElems z es2 = true →
          dFuelL es2 ≤ 4 * ((es2.map encBytes).join).length := by
        intro es2
        induction es2 with
        | nil => simp [dFuelL]
        | cons e tl ihl =>
          intro hsz hw2
          simp only [wfElems, Bool.and_eq_true] at hw2
          have hsze : sizeOf e < n := by
            have : sizeOf e < sizeOf (e :: tl) := by
              simp <;> omega
            omega
          have h1 := ih (sizeOf e) hsze e le_rfl hw2.1.2
          have h2 := ihl (by
            have : sizeOf tl < sizeOf (e :: tl) := by
              simp <;> omega
            omega) hw2.2
          rw [show dFuelL (e :: tl) = 2 + dFuel e + dFuelL tl from rfl]
          simp only [List.map_cons, join_cons_length]
          omega
      rw [show dFuel (.vslice z es) = 3 + dFuelL es from rfl,
        (encB_slice z es (encErrNoneL z es hw)).1]
      have := hL es le_rfl hw
      simp only [List.length_append, List.length_cons, List.length_singleton,
        List.length_nil]
      omega
    | vrecord fs =>
      simp only [wfB, Bool.and_eq_true, decide_eq_true_eq] at hw
      have hszfs : sizeOf fs < n := by
        have : sizeOf fs < sizeOf (HVal.vrecord fs) := by
          simp <;> omega
        omega
      have hascii : ∀ k ∈ fs.map (·.1), isASCII k = true := by
        intro k hk
        rcases List.mem_map.mp hk with ⟨f, hf, hfk⟩
        rw [← hfk]
        exact (wfFields_props fs hw.1 f hf).2.2.1
      have hK : ∀ keys : List Bytes, (∀ k ∈ keys, k ∈ fs.map (·.1)) →
          (keys.map (fun k => 2 + dFuel (assocVal fs k))).sum
            ≤ 4 * ((keys.map
                (fun k => strEnc k ++ encBytes (assocVal fs k))).join).length := by
        intro keys
        induction keys with
        | nil => simp
        | cons k tl ihk =>
          intro hmem
          have hszk : sizeOf (assocVal fs k) < n := by
            have := sizeOf_assocVal_le fs k
            omega
          have h1 := ih (sizeOf (assocVal fs k)) hszk (assocVal fs k) le_rfl
            (assocVal_wfB fs hw.1 k (hmem k (by simp)))
          have h2 := ihk (fun k2 hk2 => hmem k2 (by simp [hk2]))
          simp only [List.map_cons, List.sum_cons, join_cons_length,
            List.length_append]
          omega
      rw [show dFuel (.vrecord fs) = 3 + dFuelF fs from rfl,
        (encB_record fs (wfFields_no_nil_tag fs hw.1) hascii).1]
      have hsum := hK ((fs.map (·.1)).mergeSort lexLe)
        (fun k hk => ((fs.map (·.1)).mergeSort_perm lexLe).mem_iff.mp hk)
      have hperm := kFuel_perm fs hw.2 ((fs.map (·.1)).mergeSort lexLe)
        ((fs.map (·.1)).mergeSort_perm lexLe)
      have hmapeq : ((fs.map (·.1)).mergeSort lexLe).map
            (fun k => strEnc k ++ encBytes (valueOfTag fs k))
          = ((fs.map (·.1)).mergeSort lexLe).map
            (fun k => strEnc k ++ encBytes (assocVal fs k)) := by
        refine List.map_congr_left (fun k hk => ?_)
        rw [valueOfTag_eq_assoc fs k hw.2
          (((fs.map (·.1)).mergeSort_perm lexLe).mem_iff.mp hk)]
      rw [hmapeq]
      rw [hperm] at hsum
      simp only [List.length_cons, List.length_append]
      omega
    | vuint w u => simp [wfB] at hw
    | viface x => simp [wfB] at hw
    | vunsup => simp [wfB] at hw

theorem dFuel_le (v : HVal) (h : wfB v = true) :
    dFuel v + 2 ≤ 4 * (encBytes v).length :=
  dFuel_le_aux (sizeOf v) v le_rfl h


/-! ## The round-trip decode induction -/

theorem getD_head_at (pre : Bytes) (b : Nat) (l rest : Bytes) :
    (pre ++ (b :: l) ++ rest).getD pre.length 0 = b := by
  rw [show pre ++ (b :: l) ++ rest = pre ++ ((b :: l) ++ rest) from by simp,
    show pre.length = pre.length + 0 from rfl, getD_append_right]
  rfl

/-- The commit-pass induction statement: decoding a covered value's
encoding into its own fresh zero target reproduces the value and stops
right after the node. -/
def RTNext (N : Nat) : Prop :=
  ∀ v : HVal, sizeOf v < N → wfB v = true →
    ∀ (pre rest : Bytes) (fuel : Nat), dFuel v ≤ fuel →
      decodeStep valueSetter (pre ++ encBytes v ++ rest) fuel .next
          (some (zero v)) pre.length
        = (some v, .ok (pre.length + (encBytes v).length))

/-- The element loop: with the members' encodings followed by the
closing `e`, each member is decoded into a fresh zero element and
appended, and the loop stops after the `e`. -/
theorem rt_lloop (N : Nat) (hIH : RTNext N) (z : HVal) :
    ∀ (es : List HVal) (done : List HVal) (pre rest : Bytes) (fuel : Nat),
      (∀ e ∈ es, sizeOf e < N) → wfElems z es = true →
      1 + dFuelL es ≤ fuel →
      decodeStep valueSetter (pre ++ (es.map encBytes).join ++ (101 :: rest))
          fuel .lloop (some (.vslice z done)) pre.length
        = (some (.vslice z (done ++ es)),
           .ok (pre.length + ((es.map encBytes).join).length + 1)) := by
  intro es
  induction es with
  | nil =>
    intro done pre rest fuel hsz hw hf
    obtain ⟨g, rfl⟩ : ∃ g, fuel = g + 1 := ⟨fuel - 1, by omega⟩
    have hdata : pre ++ (([] : List HVal).map encBytes).join ++ (101 :: rest)
        = pre ++ (101 :: rest) ++ [] := by simp
    have hby : (pre ++ (([] : List HVal).map encBytes).join
        ++ (101 :: rest)).getD pre.length 0 = 101 := by
      rw [hdata]
      exact getD_head_at pre 101 rest []
    have hlen : pre.length
        < (pre ++ (([] : List HVal).map encBytes).join ++ (101 :: rest)).length := by
      simp
    simp only [decodeStep]
    rw [if_neg (fun hc => hc.2 hby), if_neg (by
      push_neg
      exact ⟨hlen, hby⟩)]
    simp
  | cons e tl ihl =>
    intro done pre rest fuel hsz hw hf
    simp only [wfElems, Bool.and_eq_true] at hw
    obtain ⟨g, rfl⟩ : ∃ g, fuel = g + 1 := ⟨fuel - 1, by omega⟩
    have hdf : dFuelL (e :: tl) = 2 + dFuel e + dFuelL tl := rfl
    obtain ⟨b, t2, hbt, hbne⟩ := encB_head_ne e hw.1.2
    have hdata : pre ++ ((e :: tl).map encBytes).join ++ (101 :: rest)
        = pre ++ (b :: (t2 ++ (tl.map encBytes).join)) ++ (101 :: rest) := by
      rw [show ((e :: tl).map encBytes).join
          = encBytes e ++ (tl.map encBytes).join from by
        rw [List.map_cons]
        rfl, hbt]
      simp
    have hby : (pre ++ ((e :: tl).map encBytes).join
        ++ (101 :: rest)).getD pre.length 0 = b := by
      rw [hdata]
      exact getD_head_at pre b _ _
    have hlen : pre.length
        < (pre ++ ((e :: tl).map encBytes).join ++ (101 :: rest)).length := by
      rw [hdata]
      simp
    simp only [decodeStep]
    rw [if_pos ⟨hlen, by rw [hby]; exact hbne⟩]
    rw [show elemZOf (.vslice z done) = zero z from rfl,
      hvalBEq_eq (zero z) (zero e) hw.1.1]
    have hdata2 : pre ++ ((e :: tl).map encBytes).join ++ (101 :: rest)
        = pre ++ encBytes e ++ ((tl.map encBytes).join ++ (101 :: rest)) := by
      rw [show ((e :: tl).map encBytes).join
          = encBytes e ++ (tl.map encBytes).join from by
        rw [List.map_cons]
        rfl]
      simp
    rw [show decodeStep valueSetter
          (pre ++ ((e :: tl).map encBytes).join ++ (101 :: rest)) g .next
          (some (zero e)) pre.length
        = (some e, .ok (pre.length + (encBytes e).length)) from by
      rw [hdata2]
      exact hIH e (hsz e (by simp)) hw.1.2 pre
        ((tl.map encBytes).join ++ (101 :: rest)) g (by omega)]
    simp only [Option.getD_some]
    rw [show valueSetter.append (.vslice z done) e
        = .vslice z (done ++ [e]) from rfl]
    have hstep := ihl (done ++ [e]) (pre ++ encBytes e) rest g
      (fun x hx => hsz x (by simp [hx])) hw.2 (by omega)
    rw [show pre.length + (encBytes e).length
        = (pre ++ encBytes e).length from by simp]
    rw [show pre ++ ((e :: tl).map encBytes).join ++ (101 :: rest)
        = (pre ++ encBytes e) ++ (tl.map encBytes).join ++ (101 :: rest) from by
      rw [hdata2]
      simp]
    rw [hstep]
    have h1 : done ++ [e] ++ tl = done ++ e :: tl := by simp
    have h2 : (pre ++ encBytes e).length + ((tl.map encBytes).join).length + 1
        = pre.length + (((e :: tl).map encBytes).join).length + 1 := by
      simp only [List.map_cons, join_cons_length, List.length_append]
      omega
    rw [h1, h2]


/-- The dictionary entry loop: with the sorted key/value blocks followed
by the closing `e`, each key is parsed, looked up, and its member value
decoded into the mapped field's fresh zero value; the loop stops after
the `e` with every processed member overwritten. -/
theorem rt_dloop (N : Nat) (hIH : RTNext N)
    (fs : List (Bytes × Option Bytes × HVal))
    (hnd : (fs.map (·.1)).Nodup) (hwfF : wfFields fs = true)
    (hszf : sizeOf fs < N)
    (hbt : ∀ f ∈ fs, f.2.1 = some f.1) :
    ∀ (keys : List Bytes) (cur : List (Bytes × Option Bytes × HVal))
        (pre rest : Bytes) (fuel : Nat),
      keys.Nodup → (∀ k ∈ keys, k ∈ fs.map (·.1)) →
      cur.map (·.1) = fs.map (·.1) → cur.map (·.2.1) = fs.map (·.2.1) →
      (∀ k ∈ keys, fieldValAt cur ((lookupFieldIdx fs k).getD 0)
        = zero (assocVal fs k)) →
      1 + (keys.map (fun k => 2 + dFuel (assocVal fs k))).sum ≤ fuel →
      decodeStep valueSetter
          (pre ++ (keys.map (fun k2 => strEnc k2
            ++ encBytes (assocVal fs k2))).join ++ (101 :: rest))
          fuel .dloop (some (.vrecord cur)) pre.length
        = (some (.vrecord (dictSetAll fs cur keys)),
           .ok (pre.length + ((keys.map (fun k2 => strEnc k2
             ++ encBytes (assocVal fs k2))).join).length + 1)) := by
  intro keys
  induction keys with
  | nil =>
    intro cur pre rest fuel hknd hmem hm1 hm21 hinv hf
    obtain ⟨g, rfl⟩ : ∃ g, fuel = g + 1 := ⟨fuel - 1, by omega⟩
    have hdata : pre ++ (([] : List Bytes).map (fun k2 => strEnc k2
          ++ encBytes (assocVal fs k2))).join ++ (101 :: rest)
        = pre ++ (101 :: rest) ++ [] := by simp
    have hby : (pre ++ (([] : List Bytes).map (fun k2 => strEnc k2
          ++ encBytes (assocVal fs k2))).join ++ (101 :: rest)).getD
          pre.length 0 = 101 := by
      rw [hdata]
      exact getD_head_at pre 101 rest []
    have hlen : pre.length < (pre ++ (([] : List Bytes).map (fun k2 => strEnc k2
        ++ encBytes (assocVal fs k2))).join ++ (101 :: rest)).length := by
      simp
    simp only [decodeStep]
    rw [if_neg (fun hc => hc.2 hby), if_neg (by
      push_neg
      exact ⟨hlen, hby⟩)]
    simp [dictSetAll]
  | cons k tl ihk =>
    intro cur pre rest fuel hknd hmem hm1 hm21 hinv hf
    obtain ⟨g, rfl⟩ : ∃ g, fuel = g + 1 := ⟨fuel - 1, by omega⟩
    have hdf : ((k :: tl).map (fun k2 => 2 + dFuel (assocVal fs k2))).sum
        = 2 + dFuel (assocVal fs k)
          + (tl.map (fun k2 => 2 + dFuel (assocVal fs k2))).sum := by
      simp
    obtain ⟨f0, hf0, hf0k⟩ := List.mem_map.mp (hmem k (by simp))
    have hkprops := wfFields_props fs hwfF f0 hf0
    have hkascii : isASCII k = true := by rw [← hf0k]; exact hkprops.2.2.1
    have hklen : k.length ≤ 2 ^ 63 - 1 := by
      rw [← hf0k]
      exact hkprops.2.2.2.1
    have hjoin : ((k :: tl).map (fun k2 => strEnc k2
          ++ encBytes (assocVal fs k2))).join
        = (strEnc k ++ encBytes (assocVal fs k))
          ++ ((tl.map (fun k2 => strEnc k2 ++ encBytes (assocVal fs k2))).join) := by
      rw [List.map_cons]
      rfl
    obtain ⟨i, hlk, hilt, htag, hval⟩ := lookup_spec fs k hnd hbt (hmem k (by simp))
    cases hnd2 : natToDigits k.length with
    | nil => exact absurd hnd2 (natToDigits_ne_nil _)
    | cons d dt =>
    have hdd : isDigit d = true := by
      have := natToDigits_all_digits k.length
      rw [hnd2] at this
      exact this d (by simp)
    have hdlt : d ≤ 57 := by
      simp only [isDigit, Bool.and_eq_true, decide_eq_true_eq] at hdd
      omega
    have hstrE : strEnc k = d :: (dt ++ 58 :: k) := by
      rw [strEnc, hnd2]
      rfl
    have hdata1 : pre ++ ((k :: tl).map (fun k2 => strEnc k2
          ++ encBytes (assocVal fs k2))).join ++ (101 :: rest)
        = pre ++ (d :: (dt ++ 58 :: k ++ encBytes (assocVal fs k)
            ++ (tl.map (fun k2 => strEnc k2
              ++ encBytes (assocVal fs k2))).join)) ++ (101 :: rest) := by
      rw [hjoin, hstrE]
      simp
    have hby : (pre ++ ((k :: tl).map (fun k2 => strEnc k2
          ++ encBytes (assocVal fs k2))).join ++ (101 :: rest)).getD
          pre.length 0 = d := by
      rw [hdata1]
      exact getD_head_at pre d _ _
    have hlen : pre.length < (pre ++ ((k :: tl).map (fun k2 => strEnc k2
        ++ encBytes (assocVal fs k2))).join ++ (101 :: rest)).length := by
      rw [hdata1]
      simp
    have hdataS : pre ++ ((k :: tl).map (fun k2 => strEnc k2
          ++ encBytes (assocVal fs k2))).join ++ (101 :: rest)
        = pre ++ strEnc k ++ (encBytes (assocVal fs k)
          ++ ((tl.map (fun k2 => strEnc k2
            ++ encBytes (assocVal fs k2))).join ++ (101 :: rest))) := by
      rw [hjoin]
      simp
    have hsi : stringIndices pre.length
          (pre ++ ((k :: tl).map (fun k2 => strEnc k2
            ++ encBytes (assocVal fs k2))).join ++ (101 :: rest))
        = .ok (pre.length + (natToDigits k.length).length + 1,
            pre.length + (natToDigits k.length).length + 1 + k.length) := by
      rw [hdataS]
      exact stringIndices_at pre k _ (by push_cast; omega)
    have hex : extract (pre ++ ((k :: tl).map (fun k2 => strEnc k2
          ++ encBytes (assocVal fs k2))).join ++ (101 :: rest))
          (pre.length + (natToDigits k.length).length + 1)
          (pre.length + (natToDigits k.length).length + 1 + k.length) = k := by
      rw [hdataS]
      exact extract_strEnc pre k _
    have hlkc : lookupFieldIdx cur k = some i := by
      rw [lookup_btags cur fs k hm21, hlk]
    have htgt : fieldValAt cur i = zero (assocVal fs k) := by
      have := hinv k (by simp)
      rw [hlk] at this
      simpa using this
    have hvdec : decodeStep valueSetter
          (pre ++ ((k :: tl).map (fun k2 => strEnc k2
            ++ encBytes (assocVal fs k2))).join ++ (101 :: rest)) g .next
          (some (zero (assocVal fs k)))
          (pre.length + (natToDigits k.length).length + 1 + k.length)
        = (some (assocVal fs k),
           .ok ((pre ++ strEnc k).length + (encBytes (assocVal fs k)).length) ) := by
      rw [show pre ++ ((k :: tl).map (fun k2 => strEnc k2
            ++ encBytes (assocVal fs k2))).join ++ (101 :: rest)
          = (pre ++ strEnc k) ++ encBytes (assocVal fs k)
            ++ ((tl.map (fun k2 => strEnc k2
              ++ encBytes (assocVal fs k2))).join ++ (101 :: rest)) from by
        rw [hjoin]
        simp,
        show pre.length + (natToDigits k.length).length + 1 + k.length
          = (pre ++ strEnc k).length from by
        simp [strEnc]
        omega]
      exact hIH (assocVal fs k)
        (by have := sizeOf_assocVal_le fs k; omega)
        (assocVal_wfB fs hwfF k (hmem k (by simp))) (pre ++ strEnc k) _ g
        (by omega)
    simp only [decodeStep]
    rw [if_pos ⟨hlen, by rw [hby]; omega⟩]
    rw [if_neg (by rw [hby, hdd]; simp)]
    simp only [hsi, hex, hlkc, htgt, hvdec, Option.getD_some]
    have hinvp : ∀ k2 ∈ tl, fieldValAt (setFieldVal cur i (assocVal fs k))
        ((lookupFieldIdx fs k2).getD 0) = zero (assocVal fs k2) := by
      intro k2 hk2
      obtain ⟨i2, hlk2, hilt2, htag2, hval2⟩ :=
        lookup_spec fs k2 hnd hbt (hmem k2 (by simp [hk2]))
      rw [hlk2]
      simp only [Option.getD_some]
      have hkne : k2 ≠ k := fun hc =>
        (List.nodup_cons.mp hknd).1 (hc ▸ hk2)
      have hii : i ≠ i2 := by
        intro hc
        rw [hc] at htag
        exact hkne (htag2.symm.trans htag)
      rw [fieldValAt_set_ne cur i i2 _ hii]
      have := hinv k2 (by simp [hk2])
      rw [hlk2] at this
      simpa using this
    have hstep := ihk (setFieldVal cur i (assocVal fs k))
      (pre ++ strEnc k ++ encBytes (assocVal fs k)) rest g
      (List.nodup_cons.mp hknd).2 (fun k2 hk2 => hmem k2 (by simp [hk2]))
      (by rw [setFieldVal_map1]; exact hm1)
      (by rw [setFieldVal_map21]; exact hm21)
      hinvp (by omega)
    rw [show (pre ++ strEnc k).length + (encBytes (assocVal fs k)).length
        = (pre ++ strEnc k ++ encBytes (assocVal fs k)).length from by
      simp
      omega]
    rw [show pre ++ ((k :: tl).map (fun k2 => strEnc k2
          ++ encBytes (assocVal fs k2))).join ++ (101 :: rest)
        = (pre ++ strEnc k ++ encBytes (assocVal fs k))
          ++ (tl.map (fun k2 => strEnc k2
            ++ encBytes (assocVal fs k2))).join ++ (101 :: rest) from by
      rw [hjoin]
      simp]
    rw [hstep]
    have h1 : dictSetAll fs (setFieldVal cur i (assocVal fs k)) tl
        = dictSetAll fs cur (k :: tl) := by
      rw [dictSetAll, hlk]
      rfl
    have h2 : (pre ++ strEnc k ++ encBytes (assocVal fs k)).length
          + ((tl.map (fun k2 => strEnc k2
            ++ encBytes (assocVal fs k2))).join).length + 1
        = pre.length + (((k :: tl).map (fun k2 => strEnc k2
            ++ encBytes (assocVal fs k2))).join).length + 1 := by
      rw [hjoin]
      simp
      omega
    rw [h1, h2]



/-- The commit pass reproduces every covered value (strong induction on
the value's size; the loops are handled by `rt_lloop` and `rt_dloop`). -/
theorem decodeRT_aux : ∀ n, RTNext n := by
  intro n
  induction n using Nat.strong_induction_on with
  | _ n ih =>
    intro v hv hw pre rest fuel hf
    cases v with
    | vint w i =>
      cases w with
      | w64 =>
        simp only [wfB, Bool.and_eq_true, decide_eq_true_eq] at hw
        rw [(encB_int IW.w64 i).1]
        have hdfv : dFuel (HVal.vint .w64 i) = 1 := rfl
        obtain ⟨f, rfl⟩ : ∃ f, fuel = f + 1 := ⟨fuel - 1, by omega⟩
        have hb : (pre ++ (105 :: intToDigits i ++ [101]) ++ rest).getD
            pre.length 0 = 105 := by
          rw [show pre ++ (105 :: intToDigits i ++ [101]) ++ rest
              = pre ++ (105 :: (intToDigits i ++ [101])) ++ rest from by simp]
          exact getD_head_at pre 105 _ _
        rw [decodeStep_next_int valueSetter _ f _ _ (by simp) hb]
        rw [unmarshalInt_at valueSetter pre rest i
          (some (zero (HVal.vint .w64 i))) (by omega) (by omega)]
        simp [zero, valueSetter]
      | w8 => simp [wfB] at hw
      | w16 => simp [wfB] at hw
      | w32 => simp [wfB] at hw
      | wInt => simp [wfB] at hw
    | vstr s =>
      simp only [wfB, Bool.and_eq_true, decide_eq_true_eq] at hw
      rw [(encB_str s hw.1).1]
      have hdfv : dFuel (HVal.vstr s) = 1 := rfl
      obtain ⟨f, rfl⟩ : ∃ f, fuel = f + 1 := ⟨fuel - 1, by omega⟩
      have hpos := List.length_pos.mpr (natToDigits_ne_nil s.length)
      have hdig : isDigit ((pre ++ strEnc s ++ rest).getD pre.length 0) = true := by
        cases hnd : natToDigits s.length with
        | nil => exact absurd hnd (natToDigits_ne_nil _)
        | cons d dt =>
          rw [show strEnc s = d :: (dt ++ 58 :: s) from by rw [strEnc, hnd]; rfl,
            getD_head_at]
          have := natToDigits_all_digits s.length
          rw [hnd] at this
          exact this d (by simp)
      rw [decodeStep_next_str valueSetter _ f _ _ (by simp [strEnc]) hdig]
      rw [unmarshalString_at valueSetter pre s rest
        (some (zero (HVal.vstr s))) (by omega)]
      simp [zero, valueSetter]
    | vslice z es =>
      have hIH : RTNext (sizeOf (HVal.vslice z es)) := fun v' hv' hw' =>
        ih (sizeOf v' + 1) (by omega) v' (by omega) hw'
      rw [(encB_slice z es (encErrNoneL z es hw)).1]
      have hdfv : dFuel (HVal.vslice z es) = 3 + dFuelL es := rfl
      obtain ⟨f, rfl⟩ : ∃ f, fuel = f + 1 := ⟨fuel - 1, by omega⟩
      have hb : (pre ++ (108 :: (es.map encBytes).join ++ [101]) ++ rest).getD
          pre.length 0 = 108 := by
        rw [show pre ++ (108 :: (es.map encBytes).join ++ [101]) ++ rest
            = pre ++ (108 :: ((es.map encBytes).join ++ [101])) ++ rest from by
          simp]
        exact getD_head_at pre 108 _ _
      rw [decodeStep_next_108 valueSetter _ f _ _ (by simp) hb]
      obtain ⟨f1, rfl⟩ : ∃ f1, f = f1 + 1 := ⟨f - 1, by omega⟩
      rw [show zero (HVal.vslice z es) = HVal.vslice z [] from rfl,
        decodeStep_list_slice]
      have helem : ∀ e ∈ es, sizeOf e < sizeOf (HVal.vslice z es) := by
        intro e he
        have h1 := List.sizeOf_lt_of_mem he
        have h2 : sizeOf es < sizeOf (HVal.vslice z es) := by simp <;> omega
        omega
      have hloop := rt_lloop (sizeOf (HVal.vslice z es)) hIH z es [] (pre ++ [108])
        rest f1 helem hw (by omega)
      rw [show pre ++ (108 :: (es.map encBytes).join ++ [101]) ++ rest
          = (pre ++ [108]) ++ (es.map encBytes).join ++ (101 :: rest) from by
        simp,
        show pre.length + 1 = (pre ++ [108]).length from by simp]
      rw [hloop]
      have h1 : ([] : List HVal) ++ es = es := by simp
      have h2 : (pre ++ [108]).length + ((es.map encBytes).join).length + 1
          = pre.length + (108 :: (es.map encBytes).join ++ [101]).length := by
        simp
        omega
      rw [h1, h2]
    | vrecord fs =>
      have hIH : RTNext (sizeOf (HVal.vrecord fs)) := fun v' hv' hw' =>
        ih (sizeOf v' + 1) (by omega) v' (by omega) hw'
      simp only [wfB, Bool.and_eq_true, decide_eq_true_eq] at hw
      have hbt : ∀ f0 ∈ fs, f0.2.1 = some f0.1 := fun f0 hf0 =>
        (wfFields_props fs hw.1 f0 hf0).2.1
      have hascii : ∀ k ∈ fs.map (·.1), isASCII k = true := by
        intro k hk
        rcases List.mem_map.mp hk with ⟨f0, hf0, hfk⟩
        rw [← hfk]
        exact (wfFields_props fs hw.1 f0 hf0).2.2.1
      have hmapeq : ((fs.map (·.1)).mergeSort lexLe).map
            (fun k => strEnc k ++ encBytes (valueOfTag fs k))
          = ((fs.map (·.1)).mergeSort lexLe).map
            (fun k => strEnc k ++ encBytes (assocVal fs k)) := by
        refine List.map_congr_left (fun k hk => ?_)
        rw [valueOfTag_eq_assoc fs k hw.2
          (((fs.map (·.1)).mergeSort_perm lexLe).mem_iff.mp hk)]
      rw [(encB_record fs (wfFields_no_nil_tag fs hw.1) hascii).1, hmapeq]
      have hperm := (fs.map (·.1)).mergeSort_perm lexLe
      set skeys := (fs.map (·.1)).mergeSort lexLe with hskeys
      have hdfv : dFuel (HVal.vrecord fs) = 3 + dFuelF fs := rfl
      obtain ⟨f, rfl⟩ : ∃ f, fuel = f + 1 := ⟨fuel - 1, by omega⟩
      have hb : (pre ++ (100 :: (skeys.map
            (fun k => strEnc k ++ encBytes (assocVal fs k))).join ++ [101])
            ++ rest).getD pre.length 0 = 100 := by
        rw [show pre ++ (100 :: (skeys.map
              (fun k => strEnc k ++ encBytes (assocVal fs k))).join ++ [101])
              ++ rest
            = pre ++ (100 :: ((skeys.map
              (fun k => strEnc k ++ encBytes (assocVal fs k))).join ++ [101]))
              ++ rest from by simp]
        exact getD_head_at pre 100 _ _
      rw [decodeStep_next_100 valueSetter _ f _ _ (by simp) hb]
      obtain ⟨f1, rfl⟩ : ∃ f1, f = f1 + 1 := ⟨f - 1, by omega⟩
      rw [show zero (HVal.vrecord fs) = HVal.vrecord (zeroFields fs) from rfl,
        decodeStep_dict_record]
      have hszfs : sizeOf fs < sizeOf (HVal.vrecord fs) := by simp <;> omega
      have hinv0 : ∀ k ∈ skeys,
          fieldValAt (zeroFields fs) ((lookupFieldIdx fs k).getD 0)
            = zero (assocVal fs k) := by
        intro k hk
        obtain ⟨i, hlk, hilt, htag, hval⟩ :=
          lookup_spec fs k hw.2 hbt (hperm.mem_iff.mp hk)
        rw [hlk]
        simp only [Option.getD_some]
        rw [fieldValAt_zeroFields, hval]
      have hdl := rt_dloop (sizeOf (HVal.vrecord fs)) hIH fs hw.2 hw.1 hszfs hbt
        skeys (zeroFields fs) (pre ++ [100]) rest f1
        (hperm.nodup_iff.mpr hw.2)
        (fun k hk => hperm.mem_iff.mp hk)
        (zeroFields_map1 fs) (zeroFields_map21 fs) hinv0
        (by rw [kFuel_perm fs hw.2 _ hperm]; omega)
      rw [show pre ++ (100 :: (skeys.map
            (fun k => strEnc k ++ encBytes (assocVal fs k))).join ++ [101])
            ++ rest
          = (pre ++ [100]) ++ (skeys.map
            (fun k2 => strEnc k2 ++ encBytes (assocVal fs k2))).join
            ++ (101 :: rest) from by simp,
        show pre.length + 1 = (pre ++ [100]).length from by simp]
      rw [hdl]
      rw [dictSetAll_zero fs hw.2 hbt _ (fun k hk => hperm.mem_iff.mp hk)
        (fun k hk => hperm.mem_iff.mpr hk)]
      have h2 : (pre ++ [100]).length + ((skeys.map
            (fun k2 => strEnc k2 ++ encBytes (assocVal fs k2))).join).length + 1
          = pre.length + (100 :: (skeys.map
            (fun k => strEnc k ++ encBytes (assocVal fs k))).join ++ [101]).length := by
        simp
        omega
      rw [h2]
    | vuint w u => simp [wfB] at hw
    | viface x => simp [wfB] at hw
    | vunsup => simp [wfB] at hw

/-- Round-trip of the decode commit pass on a covered value. -/
theorem decodeRT (v : HVal) (hw : wfB v = true) (pre rest : Bytes)
    (fuel : Nat) (hf : dFuel v ≤ fuel) :
    decodeStep valueSetter (pre ++ encBytes v ++ rest) fuel .next
        (some (zero v)) pre.length
      = (some v, .ok (pre.length + (encBytes v).length)) :=
  decodeRT_aux (sizeOf v + 1) v (by omega) hw pre rest fuel hf


/-- C1 amended.  For every covered value — `int64` scalars in range,
ASCII strings, well-typed slices, and structs whose members carry a
non-empty ASCII `key` tag and an equal `bencode` tag, tags distinct,
nested arbitrarily — `Marshal` succeeds, and `Unmarshal` of the
resulting bytes into a fresh zero target of the value's shape succeeds
and reproduces the value exactly.  (The unamended claim fails because
the encoder reads the `key` tag while the decoder matches the `bencode`
tag; see the counterexample.) -/
theorem claim_C1_amended (v : HVal) (h : wfB v = true) :
    Marshal v = .ok (encBytes v) ∧
    Unmarshal (encBytes v) (.ptr (zero v)) = (.ok (), .ptr v) := by
  constructor
  · have he : encErr v = none := encErrNone v h
    simp only [Marshal]
    rw [show marshal v [] = (encBytes v, encErr v) from rfl, he]
  · have hfuel : dFuel v ≤ topFuel (encBytes v) := by
      have h1 := dFuel_le v h
      simp only [topFuel]
      omega
    have hcommit : decodeStep valueSetter (encBytes v) (topFuel (encBytes v))
        .next (some (zero v)) 0 = (some v, .ok (encBytes v).length) := by
      have h2 := decodeRT v h [] [] (topFuel (encBytes v)) hfuel
      simpa using h2
    have hnoopsnd : (decodeStep noOpValueSetter (encBytes v)
        (topFuel (encBytes v)) .next (some (zero v)) 0).2
        = .ok (encBytes v).length := by
      have hs := decodeStep_shape (encBytes v) (topFuel (encBytes v)) .next
        noOpValueSetter valueSetter (some (zero v)) (some (zero v)) 0
        (Or.inr rfl) (Or.inl rfl) (by simp [sameShapeOpt, sameShape_refl])
      rw [hs.1, hcommit]
    have hnoopfst : (decodeStep noOpValueSetter (encBytes v)
        (topFuel (encBytes v)) .next (some (zero v)) 0).1 = some (zero v) :=
      decodeStep_noOp_fst (encBytes v) (topFuel (encBytes v)) .next
        (some (zero v)) 0
    have hfirst : unmarshalNext noOpValueSetter (topFuel (encBytes v))
        (encBytes v) (some (zero v)) 0
        = (some (zero v), .ok (encBytes v).length) := by
      rw [unmarshalNext]
      rcases hds : decodeStep noOpValueSetter (encBytes v)
        (topFuel (encBytes v)) .next (some (zero v)) 0 with ⟨t1, r1⟩
      rw [hds] at hnoopfst hnoopsnd
      rw [show (t1, r1).1 = t1 from rfl] at hnoopfst
      rw [show (t1, r1).2 = r1 from rfl] at hnoopsnd
      rw [hnoopfst, hnoopsnd]
    have hcommit2 : unmarshalNext valueSetter (topFuel (encBytes v))
        (encBytes v) (some (zero v)) 0 = (some v, .ok (encBytes v).length) := by
      rw [unmarshalNext]
      exact hcommit
    simp only [Unmarshal, hfirst]
    rw [if_neg (by omega)]
    simp only [Option.getD_some, hcommit2]

/-- Witness for the amended C1: the struct `{X int64}` with tags
`key:"x" bencode:"x"` and value 2 (encoding `d1:xi2ee`) is covered, and
it round-trips exactly. -/
theorem claim_C1_amended_witness :
    wfB (HVal.vrecord [([120], some [120], HVal.vint .w64 2)]) = true ∧
    (Marshal (HVal.vrecord [([120], some [120], HVal.vint .w64 2)])
        = .ok (encBytes (HVal.vrecord [([120], some [120], HVal.vint .w64 2)]))
      ∧ Unmarshal (encBytes (HVal.vrecord [([120], some [120], HVal.vint .w64 2)]))
          (.ptr (zero (HVal.vrecord [([120], some [120], HVal.vint .w64 2)])))
        = (.ok (), .ptr (HVal.vrecord [([120], some [120], HVal.vint .w64 2)]))) :=
  ⟨by decide, claim_C1_amended _ (by decide)⟩

/-- C1 counterexample.  The claim promises the round-trip for every
encodable record whose members carry field tags.  The record member
here carries the `key` tag `x` (what the encoder reads) and no
`bencode` tag (what the decoder matches): `Marshal` emits `d1:xi2ee`,
but decoding those bytes into a fresh target of the same shape leaves
the member at zero instead of 2 — the decoder drops the key as
unmapped, so the round-trip does not reproduce the value. -/
theorem claim_C1_counterexample :
    Marshal (.vrecord [([120], none, .vint .w64 2)])
      = .ok [100, 49, 58, 120, 105, 50, 101, 101] ∧
    Unmarshal [100, 49, 58, 120, 105, 50, 101, 101]
        (.ptr (.vrecord [([120], none, .vint .w64 0)]))
      = (.ok (), .ptr (.vrecord [([120], none, .vint .w64 0)])) := by
  constructor
  · simp [Marshal, marshal, marshalStruct, marshalKeysA, marshalString,
      isASCII, natToDigits, keyToIdx, kiAux, fieldValAt, List.mergeSort,
      marshalInt, intToDigits]
  · rfl

end Bencode
